import Mathlib

/-!
Verification development for the agent-md-tool repository.

The TypeScript sources are shallowly embedded over `List Char` strings:

* `src/downloader.ts` — `parseGitHubUrl`, `fetchRepoTreeWithFallback` (branch
  fallback loop), `sanitizePath` (with a model of Node's `path.resolve` for
  absolute POSIX bases), and the sequential batch-download loop of
  `downloadDocs` (lines 312-364), with network and filesystem effects
  abstracted into oracles.
* `src/generator.ts` — markers, `generateIndexBlock`, `updateContent`,
  and the pure content transformation of `removeSource`.

All definitions are executable and mirror the JavaScript control flow;
effectful steps (HTTP requests, `fs` calls) are oracle parameters.
-/

namespace AgentMd

/-- Strings are modelled as lists of characters. -/
abbrev Str := List Char

/-- Convert a Lean string literal to the character-list model. -/
def strOf (s : String) : Str := s.toList

instance {ε α : Type} [DecidableEq ε] [DecidableEq α] : DecidableEq (Except ε α) := fun x y =>
  match x, y with
  | .ok a, .ok b =>
    if h : a = b then .isTrue (by rw [h]) else .isFalse (fun hc => h (by cases hc; rfl))
  | .error a, .error b =>
    if h : a = b then .isTrue (by rw [h]) else .isFalse (fun hc => h (by cases hc; rfl))
  | .ok _, .error _ => .isFalse (fun hc => nomatch hc)
  | .error _, .ok _ => .isFalse (fun hc => nomatch hc)

/-- JavaScript whitespace (the characters relevant to this code base):
space, tab, line feed, carriage return, vertical tab, form feed,
no-break space, BOM. -/
def jsIsWs (c : Char) : Bool :=
  c == ' ' || c == '\t' || c == '\n' || c == '\r' || c == '\x0b' ||
  c == '\x0c' || c == ' ' || c == '﻿'

/-- Model of `String.prototype.trimEnd`. -/
def jsTrimEnd (s : Str) : Str := (s.reverse.dropWhile jsIsWs).reverse

/-- Model of `String.prototype.trim`. -/
def jsTrim (s : Str) : Str := jsTrimEnd (s.dropWhile jsIsWs)

/-- The pattern `q` occurs in `s` starting at index `i`. -/
def occursAt (q s : Str) (i : Nat) : Prop :=
  i + q.length ≤ s.length ∧ (s.drop i).take q.length = q

instance (q s : Str) (i : Nat) : Decidable (occursAt q s i) := by
  unfold occursAt; infer_instance

/-- Model of `String.prototype.indexOf`: index of the first occurrence of
`q` in `s`, `none` when there is none (JavaScript's `-1`). -/
def findSubstr (q : Str) : Str → Option Nat
  | [] => if q.length = 0 then some 0 else none
  | c :: t =>
    if q.length ≤ (c :: t).length ∧ (c :: t).take q.length = q then some 0
    else (findSubstr q t).map (· + 1)

/-- `q` does not occur in `s`. -/
def NoOcc (q s : Str) : Prop := ∀ i, ¬ occursAt q s i

/-- `q` occurs in `s` exactly once, at index `i`. -/
def UniqueOccAt (q s : Str) (i : Nat) : Prop :=
  occursAt q s i ∧ ∀ j, occursAt q s j → j = i

/-- All indices at which `q` occurs in `s`, in increasing order. -/
def occIdx (q s : Str) : List Nat :=
  (List.range (s.length + 1)).filter (fun i => decide (occursAt q s i))

/-! ### Generator model (`src/generator.ts`) -/

/-- `START_MARKER_PREFIX` from generator.ts. -/
def startMarkerPre : Str := strOf "<!-- DOCS-INDEX-START:"

/-- `END_MARKER_PREFIX` from generator.ts. -/
def endMarkerPre : Str := strOf "<!-- DOCS-INDEX-END:"

/-- `MARKER_SUFFIX` from generator.ts. -/
def markerSuffix : Str := strOf " -->"

/-- `getStartMarker` from generator.ts. -/
def getStartMarker (sid : Str) : Str := startMarkerPre ++ sid ++ markerSuffix

/-- `getEndMarker` from generator.ts. -/
def getEndMarker (sid : Str) : Str := endMarkerPre ++ sid ++ markerSuffix

/-- Failure of `updateContent` (the thrown "Malformed documentation index"
error). -/
inductive GenError
  | malformedBlock
  deriving DecidableEq

/-- The text placed between the two markers by `generateIndexBlock`:
everything of the template except the markers themselves. -/
def blockMid (displayName rootPath compressedIndex : Str) : Str :=
  strOf "\n[" ++ displayName ++ strOf "]\nroot: " ++ rootPath ++
  strOf "\n\nIMPORTANT: Use retrieval-led reasoning. When you need " ++ displayName ++
  strOf " information, read files from the root directory above.\n\n" ++
  compressedIndex ++ strOf "\n"

/-- `generateIndexBlock` from generator.ts (the template literal). -/
def generateIndexBlock (sourceName displayName rootPath compressedIndex : Str) : Str :=
  getStartMarker sourceName ++ blockMid displayName rootPath compressedIndex ++
  getEndMarker sourceName

/-- `updateContent` from generator.ts: replace an existing block, reject a
start marker without an end marker, or append a new block after the trimmed
end of the document. -/
def updateContent (existingContent : Str) (sourceName : Str) (indexBlock : Str) :
    Except GenError Str :=
  let startMarker := getStartMarker sourceName
  let endMarker := getEndMarker sourceName
  match findSubstr startMarker existingContent, findSubstr endMarker existingContent with
  | some startIdx, some endIdx =>
    if startIdx < endIdx then
      .ok (existingContent.take startIdx ++ indexBlock ++
           existingContent.drop (endIdx + endMarker.length))
    else
      .ok (jsTrimEnd existingContent ++ strOf "\n\n" ++ indexBlock ++ strOf "\n")
  | some _, none => .error .malformedBlock
  | none, _ =>
    .ok (jsTrimEnd existingContent ++ strOf "\n\n" ++ indexBlock ++ strOf "\n")

/-- The Upsert operation as performed by `generateAgentsMd`: build the index
block for the source and feed it to `updateContent`. -/
def upsert (doc sid displayName rootPath compressedIndex : Str) : Except GenError Str :=
  updateContent doc sid (generateIndexBlock sid displayName rootPath compressedIndex)

/-- Model of `before.replace(/\n+$/, '\n')` in `removeSource`. -/
def collapseTrailingNewlines (s : Str) : Str :=
  let k := (s.reverse.takeWhile (· == '\n')).length
  if k = 0 then s else s.take (s.length - k) ++ strOf "\n"

/-- Model of `after.replace(/^\n+/, '\n')` in `removeSource`. -/
def collapseLeadingNewlines (s : Str) : Str :=
  let k := (s.takeWhile (· == '\n')).length
  if k = 0 then s else strOf "\n" ++ s.drop k

/-- The pure content transformation of `removeSource` from generator.ts:
`none` models the `return false` (source not found) path. -/
def removeSourceContent (content : Str) (sourceName : Str) : Option Str :=
  let startMarker := getStartMarker sourceName
  let endMarker := getEndMarker sourceName
  match findSubstr startMarker content, findSubstr endMarker content with
  | some startIdx, some endIdx =>
    some (collapseTrailingNewlines (content.take startIdx) ++
          collapseLeadingNewlines (content.drop (endIdx + endMarker.length)))
  | _, _ => none

/-- Marker-safe identifiers: no `<` (so markers contain a unique `<`),
no space (so distinct identifiers give non-overlapping markers) and no
line feed (so markers live on one line). The identifiers the tool itself
generates (`<repo>-docs` lowercased with non-alphanumerics replaced by `-`)
all satisfy this. -/
def goodId (sid : Str) : Prop := '<' ∉ sid ∧ ' ' ∉ sid ∧ '\n' ∉ sid

/-- Strings free of the marker-opening character `<`. -/
def ltFree (s : Str) : Prop := '<' ∉ s

/-- The document's markers for identifier `sid` are well formed: either no
start and no end marker occurs at all, or each occurs exactly once with the
start before the end. -/
def WFid (doc sid : Str) : Prop :=
  (NoOcc (getStartMarker sid) doc ∧ NoOcc (getEndMarker sid) doc) ∨
  (∃ si ei, UniqueOccAt (getStartMarker sid) doc si ∧
            UniqueOccAt (getEndMarker sid) doc ei ∧ si < ei)

/-- A tidy document: every marker-safe identifier has well-formed markers,
and the blocks of distinct identifiers occupy disjoint ranges. -/
def Tidy (doc : Str) : Prop :=
  (∀ sid, goodId sid → WFid doc sid) ∧
  (∀ x y sx ex sy ey, goodId x → goodId y → x ≠ y →
    UniqueOccAt (getStartMarker x) doc sx → UniqueOccAt (getEndMarker x) doc ex →
    UniqueOccAt (getStartMarker y) doc sy → UniqueOccAt (getEndMarker y) doc ey →
    ex + (getEndMarker x).length ≤ sy ∨ ey + (getEndMarker y).length ≤ sx)

/-- One Upsert request: identifier plus the three content parameters of the
index block. -/
structure UpOp where
  sid : Str
  displayName : Str
  rootPath : Str
  compressedIndex : Str

/-- Marker-safe Upsert request: safe identifier, `<`-free content. -/
def goodOp (op : UpOp) : Prop :=
  goodId op.sid ∧ ltFree op.displayName ∧ ltFree op.rootPath ∧ ltFree op.compressedIndex

instance (sid : Str) : Decidable (goodId sid) := by
  unfold goodId; infer_instance

instance (s : Str) : Decidable (ltFree s) := by
  unfold ltFree; infer_instance

instance (op : UpOp) : Decidable (goodOp op) := by
  unfold goodOp; infer_instance

/-- Apply a sequence of Upserts, stopping at the first failure. -/
def applyUpserts : List UpOp → Str → Except GenError Str
  | [], doc => .ok doc
  | op :: rest, doc =>
    match upsert doc op.sid op.displayName op.rootPath op.compressedIndex with
    | .ok doc' => applyUpserts rest doc'
    | .error e => .error e

/-- Number of active blocks for identifier `sid`: start-marker occurrences
that are followed (at or after the start marker's end) by some end-marker
occurrence. -/
def activeBlockCount (doc sid : Str) : Nat :=
  ((occIdx (getStartMarker sid) doc).filter
    (fun i => (occIdx (getEndMarker sid) doc).any
      (fun j => i + (getStartMarker sid).length ≤ j))).length

/-! ### Downloader model (`src/downloader.ts`) -/

/-- Fatal failures of the batch download loop. -/
inductive DlFatal
  | pathTraversal (rel : Str)
  | downloadFailed
  deriving DecidableEq

/-- Split a character list at `/` separators. -/
def splitSlash : Str → List Str
  | [] => [[]]
  | c :: t =>
    let r := splitSlash t
    if c = '/' then [] :: r
    else
      match r with
      | [] => [[c]]
      | h :: t' => (c :: h) :: t'

/-- POSIX path normalization: drop empty and `.` segments, let `..` pop the
previous segment (or stay at the root). -/
def normalizeSegs (segs : List Str) : List Str :=
  segs.foldl
    (fun acc seg =>
      if seg = [] ∨ seg = strOf "." then acc
      else if seg = strOf ".." then acc.dropLast
      else acc ++ [seg]) []

/-- Normalize an absolute POSIX path string. -/
def resolveAbs (s : Str) : Str :=
  '/' :: List.intercalate (strOf "/") (normalizeSegs (splitSlash s))

/-- Model of Node `path.resolve(base, rel)` for an absolute `base`. -/
def pathResolve2 (base rel : Str) : Str :=
  if rel.take 1 = strOf "/" then resolveAbs rel
  else resolveAbs (base ++ strOf "/" ++ rel)

/-- Model of Node `path.resolve(base)` for an absolute `base`. -/
def pathResolve1 (base : Str) : Str := resolveAbs base

/-- `sanitizePath` from downloader.ts: resolve the relative path against the
base and require the resolved string to start with the resolved base
(JavaScript's `String.prototype.startsWith`). -/
def sanitizePath (basePath relativePath : Str) : Except DlFatal Str :=
  let fullPath := pathResolve2 basePath relativePath
  if (pathResolve1 basePath).isPrefixOf fullPath then .ok fullPath
  else .error (.pathTraversal relativePath)

/-- A resolved path lies inside the directory tree rooted at `basePath`:
it is the resolved base itself or extends it past a `/` separator. -/
def underRoot (basePath p : Str) : Prop :=
  p = pathResolve1 basePath ∨ (pathResolve1 basePath ++ strOf "/").isPrefixOf p = true

instance (basePath p : Str) : Decidable (underRoot basePath p) := by
  unfold underRoot; infer_instance

/-- Relative path of a selected file: the code strips `effectivePath` plus
the following slash via `substring(effectivePath.length + 1)`. -/
def relPathOf (effectivePath : Str) (filePath : Str) : Str :=
  if effectivePath ≠ [] then filePath.drop (effectivePath.length + 1) else filePath

/-- A progress-callback invocation: (succeededSoFar, total, relativePath). -/
abbrev Progress := Nat × Nat × Str

/-- The returned outcome of `downloadDocs` restricted to the batch loop's
contribution: `totalFiles` and `downloadedFiles` (the other fields,
`docsPath` and `sourceName`, are constants of the call). -/
structure DownloadOutcomeM where
  totalFiles : Nat
  downloadedFiles : Nat
  deriving DecidableEq

/-- The sequential download loop of `downloadDocs` (lines 315-340).
`ok f` is the oracle for "mkdir + fetch + write for file `f` all succeed".
Accumulates the success count, the failed list and the progress-callback
invocations; `sanitizePath` runs outside the per-file `try`, so its failure
aborts the whole loop. -/
def downloadLoop (ok : Str → Bool) (docsPath effectivePath : Str) :
    List Str → Nat → List Str → List Progress → Nat →
    Except DlFatal (Nat × List Str × List Progress)
  | [], count, failed, events, _total => .ok (count, failed, events)
  | f :: rest, count, failed, events, total =>
    let rp := relPathOf effectivePath f
    match sanitizePath docsPath rp with
    | .error e => .error e
    | .ok _ =>
      if ok f then
        downloadLoop ok docsPath effectivePath rest (count + 1) failed
          (events ++ [(count + 1, total, rp)]) total
      else
        downloadLoop ok docsPath effectivePath rest count (failed ++ [rp]) events total

/-- The batch phase of `downloadDocs`: run the loop, fail with
`DownloadFailed` when nothing succeeded, otherwise return the outcome. -/
def downloadBatch (ok : Str → Bool) (docsPath effectivePath : Str) (files : List Str) :
    Except DlFatal DownloadOutcomeM :=
  match downloadLoop ok docsPath effectivePath files 0 [] [] files.length with
  | .error e => .error e
  | .ok (count, _failed, _events) =>
    if count = 0 then .error .downloadFailed
    else .ok ⟨files.length, count⟩

/-- The `failedFiles` list accumulated by the loop (only warned about by the
code, never returned). -/
def batchFailedList (ok : Str → Bool) (docsPath effectivePath : Str)
    (files : List Str) : List Str :=
  match downloadLoop ok docsPath effectivePath files 0 [] [] files.length with
  | .error _ => []
  | .ok (_, failed, _) => failed

/-- The progress-callback invocations made during the batch. -/
def batchProgressEvents (ok : Str → Bool) (docsPath effectivePath : Str)
    (files : List Str) : List Progress :=
  match downloadLoop ok docsPath effectivePath files 0 [] [] files.length with
  | .error _ => []
  | .ok (_, _, events) => events

/-- Expected progress events: the `n`-indexed enumeration of the successful
relative paths, each reported with its success ordinal and the total. -/
def eventsFor (total n : Nat) (rps : List Str) : List Progress :=
  (List.enumFrom n rps).map (fun p => (p.1 + 1, total, p.2))

/-! ### Branch-fallback model (`fetchRepoTreeWithFallback`) -/

/-- Outcome of one tree-retrieval request for a branch. -/
inductive TreeResp (α ε : Type)
  | success (t : α)
  | notFound
  | failed (e : ε)
  deriving DecidableEq

/-- Failures surfaced by the fallback loop. -/
inductive FetchErr (ε : Type)
  | repositoryNotFound (branchesTried : List Str)
  | surfaced (e : ε)
  deriving DecidableEq

/-- `BRANCH_FALLBACKS` from downloader.ts. -/
def branchFallbacks : List Str :=
  [strOf "main", strOf "master", strOf "develop", strOf "dev"]

/-- Candidate branch list: the preferred branch (when non-empty) followed by
the fallbacks not already present. -/
def buildBranchesToTry (preferredBranch : Str) : List Str :=
  let init := if preferredBranch ≠ [] then [preferredBranch] else []
  branchFallbacks.foldl
    (fun acc fallback => if fallback ∈ acc then acc else acc ++ [fallback]) init

/-- Duplicate removal preserving first occurrences (the spec's wording for
the candidate list construction; compared against `buildBranchesToTry`). -/
def dedupFirst (l : List Str) : List Str :=
  l.foldl (fun acc x => if x ∈ acc then acc else acc ++ [x]) []

/-- The fallback loop over a candidate list. Also returns the list of
branches actually attempted (the requests issued). `notFound` (HTTP 404)
advances to the next candidate, any other failure aborts. -/
def tryBranches {α ε : Type} (oracle : Str → TreeResp α ε) (all : List Str) :
    List Str → Except (FetchErr ε) (α × Str) × List Str
  | [] => (.error (.repositoryNotFound all), [])
  | b :: rest =>
    match oracle b with
    | .success t => (.ok (t, b), [b])
    | .notFound =>
      let r := tryBranches oracle all rest
      (r.1, b :: r.2)
    | .failed e => (.error (.surfaced e), [b])

/-- `fetchRepoTreeWithFallback` from downloader.ts, over a request oracle. -/
def fetchRepoTreeWithFallback {α ε : Type} (oracle : Str → TreeResp α ε)
    (preferredBranch : Str) : Except (FetchErr ε) (α × Str) × List Str :=
  let branchesToTry := buildBranchesToTry preferredBranch
  tryBranches oracle branchesToTry branchesToTry

/-! ### URL resolver model (`parseGitHubUrl`) -/

/-- Parsed repository locator. -/
structure ParsedGitHubUrl where
  owner : Str
  repo : Str
  branch : Str
  deriving DecidableEq

/-- Failure of `parseGitHubUrl`. -/
inductive UrlErr
  | invalidSource
  deriving DecidableEq

/-- Model of `String.prototype.startsWith`. -/
def startsWithL (q s : Str) : Bool := decide (s.take q.length = q)

/-- Suffix test (used to model the anchored regex replaces `\.git$`, `\/$`). -/
def endsWithL (q s : Str) : Bool := decide (s.drop (s.length - q.length) = q)

/-- The literal `github.com/` the regex must match. -/
def ghPrefix : Str := strOf "github.com/"

/-- One attempt of the regex
`github\.com\/([^\/]+)\/([^\/]+)(?:\/tree\/([^\/]+))?` at the start of `s`:
greedy nonempty segments, optional `/tree/<branch>` group. -/
def tryMatchAt (s : Str) : Option ParsedGitHubUrl :=
  if startsWithL ghPrefix s then
    let rest := s.drop ghPrefix.length
    let owner := rest.takeWhile (· ≠ '/')
    if owner = [] then none
    else
      match rest.drop owner.length with
      | c :: r2 =>
        if c = '/' then
          let repo := r2.takeWhile (· ≠ '/')
          if repo = [] then none
          else
            let r3 := r2.drop repo.length
            let branch :=
              if startsWithL (strOf "/tree/") r3 then (r3.drop 6).takeWhile (· ≠ '/')
              else []
            some ⟨owner, repo, branch⟩
        else none
      | [] => none
  else none

/-- Unanchored regex search: try every start position, leftmost match wins. -/
def scanGitHub : Str → Option ParsedGitHubUrl
  | [] => none
  | c :: t =>
    match tryMatchAt (c :: t) with
    | some r => some r
    | none => scanGitHub t

/-- `parseGitHubUrl` from downloader.ts: trim, default the scheme, strip a
final `.git` then a final `/`, and run the regex. -/
def parseGitHubUrl (url : Str) : Except UrlErr ParsedGitHubUrl :=
  let c0 := jsTrim url
  let c1 := if startsWithL (strOf "http") c0 then c0 else strOf "https://" ++ c0
  let c2 := if endsWithL (strOf ".git") c1 then c1.take (c1.length - 4) else c1
  let c3 := if endsWithL (strOf "/") c2 then c2.take (c2.length - 1) else c2
  match scanGitHub c3 with
  | some r => .ok r
  | none => .error .invalidSource

/-- Well-formed path segment of a locator: nonempty, no slash, no
whitespace. -/
def urlSeg (s : Str) : Prop :=
  s ≠ [] ∧ ∀ c ∈ s, c ≠ '/' ∧ jsIsWs c = false

/-! ### Concrete inputs used by counterexamples and witnesses -/

/-- Oracle failing exactly `a.md`. -/
def dlOk1 : Str → Bool := fun f => !(f == strOf "a.md")

/-- Oracle failing exactly `b.md`. -/
def dlOk2 : Str → Bool := fun f => !(f == strOf "b.md")

/-- Two-file batch input. -/
def dlFiles2 : List Str := [strOf "a.md", strOf "b.md"]

/-- Oracle failing exactly `d.md` (one failure among three successes). -/
def dlOkW : Str → Bool := fun f => !(f == strOf "d.md")

/-- Four-file batch input. -/
def dlFiles4 : List Str := [strOf "a.md", strOf "b.md", strOf "c.md", strOf "d.md"]

/-- Branch oracle: preferred branch 404s, `main` succeeds, anything else is a
hard failure. -/
def c4oracle : Str → TreeResp Nat Nat := fun b =>
  if b = strOf "feature" then .notFound
  else if b = strOf "main" then .success 7
  else .failed 0

/-- Identifier used by the generator examples. -/
def xid : Str := strOf "x"

/-- Display name used by the generator examples. -/
def dName : Str := strOf "Docs"

/-- Root path used by the generator examples. -/
def rPath : Str := strOf "./docs/x"

/-- Compressed-index text used by the generator examples. -/
def cIdx : Str := strOf "idx"

/-- The Upsert request used by the generator examples. -/
def c2op : UpOp := ⟨xid, dName, rPath, cIdx⟩

/-- A document holding only an orphan end marker for `x`. -/
def c2doc0 : Str := getEndMarker xid

/-- Result of two successive Upserts of `x` on the orphan-end document. -/
def c2doc2 : Str :=
  match applyUpserts [c2op, c2op] c2doc0 with
  | .ok v => v
  | .error _ => []

/-- A marker-free host document. -/
def c2wdoc : Str := strOf "# Hello
"

/-- Result of one Upsert of `x` on the marker-free document. -/
def c2wres : Str :=
  match applyUpserts [c2op] c2wdoc with
  | .ok v => v
  | .error _ => []

/-- A document whose end marker precedes its start marker. -/
def c6doc : Str := getEndMarker xid ++ strOf "
" ++ getStartMarker xid

/-- First Upsert on the reversed-marker document. -/
def c6d1 : Str :=
  match upsert c6doc xid dName rPath cIdx with
  | .ok v => v
  | .error _ => []

/-- Second Upsert on the reversed-marker document. -/
def c6d2 : Str :=
  match upsert c6d1 xid dName rPath cIdx with
  | .ok v => v
  | .error _ => []

/-- A document that already contains a block for `x` with a distinctive body. -/
def c6blockdoc : Str := generateIndexBlock xid dName rPath (strOf "SECRETBODY")

/-- Upsert of a new body over the existing block. -/
def c6d3 : Str :=
  match upsert c6blockdoc xid dName rPath cIdx with
  | .ok v => v
  | .error _ => []

/-- Removal of `x` after the Upsert. -/
def c6d4 : Str :=
  match removeSourceContent c6d3 xid with
  | some v => v
  | none => []

/-- A document with a start marker for `broken` and no end marker. -/
def c5doc : Str := strOf "text
" ++ getStartMarker (strOf "broken") ++ strOf "
body"

/-- A document with one end marker for `x` and no start marker. -/
def c10doc : Str := strOf "intro
" ++ getEndMarker xid ++ strOf "
tail"

end AgentMd

namespace AgentMd

/-- C3: the `sanitizePath` check is a plain string-prefix test, so a crafted
relative path resolving to a sibling directory whose name extends the base
path (here `/w/docs-evil` vs base `/w/docs`) escapes `localRoot` yet is
accepted, while `../secret` is correctly rejected. -/
theorem sanitizePath_prefix_collision_bug :
    sanitizePath (strOf "/w/docs") (strOf "../docs-evil/f.md") =
      .ok (strOf "/w/docs-evil/f.md") ∧
    ¬ underRoot (strOf "/w/docs") (strOf "/w/docs-evil/f.md") ∧
    sanitizePath (strOf "/w/docs") (strOf "../secret") =
      .error (.pathTraversal (strOf "../secret")) := by
  refine ⟨by decide, by decide, by decide⟩

/-- C1 counterexample: two batches over the same two files in which a
different file fails produce identical returned outcomes, so the returned
outcome cannot report the failed list (which the code only prints as a
warning). -/
theorem downloadBatch_outcome_forgets_failed_list :
    downloadBatch dlOk1 (strOf "/w/docs") [] dlFiles2 =
      downloadBatch dlOk2 (strOf "/w/docs") [] dlFiles2 ∧
    downloadBatch dlOk1 (strOf "/w/docs") [] dlFiles2 = .ok ⟨2, 1⟩ ∧
    batchFailedList dlOk1 (strOf "/w/docs") [] dlFiles2 = [strOf "a.md"] ∧
    batchFailedList dlOk2 (strOf "/w/docs") [] dlFiles2 = [strOf "b.md"] := by
  refine ⟨by decide, by decide, by decide, by decide⟩

/-- C9 counterexample: with two selected files of which the first fails,
the progress callback is invoked only once (after the successful file),
not once per selected file. -/
theorem progress_not_invoked_on_failure :
    dlFiles2.length = 2 ∧
    batchProgressEvents dlOk1 (strOf "/w/docs") [] dlFiles2 =
      [(1, 2, strOf "b.md")] := by
  refine ⟨by decide, by decide⟩

/-- C8 counterexample: host matching is case-sensitive (`GitHub.com` is
rejected while `github.com` parses), and a `.git` suffix followed by a
trailing slash is not stripped (the repo comes back as `beta.git`). -/
theorem parseGitHubUrl_case_and_git_slash :
    parseGitHubUrl (strOf "GitHub.com/alpha/beta") = .error .invalidSource ∧
    parseGitHubUrl (strOf "github.com/alpha/beta") =
      .ok ⟨strOf "alpha", strOf "beta", []⟩ ∧
    parseGitHubUrl (strOf "github.com/alpha/beta.git/") =
      .ok ⟨strOf "alpha", strOf "beta.git", []⟩ ∧
    strOf "beta.git" ≠ strOf "beta" := by
  refine ⟨by decide, by decide, by decide, by decide⟩

end AgentMd

namespace AgentMd

/-! ### Occurrence toolkit -/

theorem occursAt_char {q s : Str} {i : Nat} (h : occursAt q s i)
    {k : Nat} (hk : k < q.length) : s[i + k]? = q[k]? := by
  obtain ⟨hle, heq⟩ := h
  have h1 : q[k]? = ((s.drop i).take q.length)[k]? := by rw [heq]
  rw [h1, List.getElem?_take, if_pos hk, List.getElem?_drop]

theorem occursAt_cons_succ {q s : Str} {c : Char} {i : Nat} :
    occursAt q (c :: s) (i + 1) ↔ occursAt q s i := by
  unfold occursAt
  simp only [List.drop_succ_cons, List.length_cons]
  constructor
  · rintro ⟨h1, h2⟩; exact ⟨by omega, h2⟩
  · rintro ⟨h1, h2⟩; exact ⟨by omega, h2⟩

theorem occursAt_zero {q s : Str} :
    occursAt q s 0 ↔ (q.length ≤ s.length ∧ s.take q.length = q) := by
  unfold occursAt
  simp

theorem occursAt_of_append {a q b s : Str} (h : s = a ++ q ++ b) :
    occursAt q s a.length := by
  subst h
  constructor
  · simp only [List.length_append]; omega
  · rw [List.append_assoc, List.drop_left, List.take_append_of_le_length (Nat.le_refl _),
      List.take_length]

theorem occursAt_append_left {q a : Str} {i : Nat} (b : Str) (h : occursAt q a i) :
    occursAt q (a ++ b) i := by
  obtain ⟨hle, heq⟩ := h
  constructor
  · simp only [List.length_append]; omega
  · rw [List.drop_append_of_le_length (by omega), List.take_append_of_le_length (by simp; omega),
      heq]

theorem occursAt_append_right {q b : Str} {j : Nat} (a : Str) (h : occursAt q b j) :
    occursAt q (a ++ b) (a.length + j) := by
  obtain ⟨hle, heq⟩ := h
  constructor
  · simp only [List.length_append]; omega
  · rw [List.drop_append, heq]

theorem occursAt_of_take {q a b : Str} {i : Nat} (h : occursAt q (a ++ b) i)
    (hle : i + q.length ≤ a.length) : occursAt q a i := by
  obtain ⟨_, heq⟩ := h
  refine ⟨hle, ?_⟩
  rw [List.drop_append_of_le_length (by omega), List.take_append_of_le_length (by simp; omega)]
    at heq
  exact heq

theorem occursAt_of_drop {q a b : Str} {i : Nat} (h : occursAt q (a ++ b) i)
    (hge : a.length ≤ i) : occursAt q b (i - a.length) := by
  obtain ⟨hle, heq⟩ := h
  constructor
  · simp only [List.length_append] at hle; omega
  · have : i = a.length + (i - a.length) := by omega
    rw [this, List.drop_append] at heq
    exact heq

theorem occursAt_take {q s : Str} {i n : Nat} (h : occursAt q s i)
    (hle : i + q.length ≤ n) : occursAt q (s.take n) i := by
  obtain ⟨hl, heq⟩ := h
  constructor
  · rw [List.length_take]; omega
  · rw [List.drop_take, List.take_take, Nat.min_eq_left (by omega), heq]

theorem occursAt_drop {q s : Str} {i n : Nat} (h : occursAt q s i)
    (hge : n ≤ i) : occursAt q (s.drop n) (i - n) := by
  obtain ⟨hl, heq⟩ := h
  constructor
  · rw [List.length_drop]; omega
  · rw [List.drop_drop]
    have : n + (i - n) = i := by omega
    rw [this, heq]

theorem findSubstr_some {q s : Str} {i : Nat} (h : findSubstr q s = some i) :
    occursAt q s i ∧ ∀ j, j < i → ¬ occursAt q s j := by
  induction s generalizing i with
  | nil =>
    unfold findSubstr at h
    by_cases hq : q.length = 0
    · rw [if_pos hq] at h
      cases h
      refine ⟨⟨by omega, ?_⟩, fun j hj => by omega⟩
      rw [List.length_eq_zero] at hq
      simp [hq]
    · rw [if_neg hq] at h; cases h
  | cons c t ih =>
    unfold findSubstr at h
    by_cases h0 : q.length ≤ (c :: t).length ∧ (c :: t).take q.length = q
    · rw [if_pos h0] at h
      cases h
      exact ⟨⟨by omega, by simpa using h0.2⟩, fun j hj => by omega⟩
    · rw [if_neg h0] at h
      match hfi : findSubstr q t with
      | none => rw [hfi] at h; cases h
      | some i' =>
        rw [hfi] at h
        simp only [Option.map_some'] at h
        cases h
        obtain ⟨hocc, hmin⟩ := ih hfi
        refine ⟨occursAt_cons_succ.mpr hocc, ?_⟩
        intro j hj
        match j with
        | 0 =>
          intro hc
          obtain ⟨hle, heq⟩ := hc
          exact h0 ⟨by simpa using hle, by simpa using heq⟩
        | j' + 1 =>
          intro hc
          exact hmin j' (by omega) (occursAt_cons_succ.mp hc)

theorem findSubstr_none {q s : Str} (h : findSubstr q s = none) : NoOcc q s := by
  induction s with
  | nil =>
    unfold findSubstr at h
    by_cases hq : q.length = 0
    · rw [if_pos hq] at h; cases h
    · intro i hi
      obtain ⟨hle, _⟩ := hi
      simp only [List.length_nil] at hle
      omega
  | cons c t ih =>
    unfold findSubstr at h
    by_cases h0 : q.length ≤ (c :: t).length ∧ (c :: t).take q.length = q
    · rw [if_pos h0] at h; cases h
    · rw [if_neg h0] at h
      match hfi : findSubstr q t with
      | some i' => rw [hfi] at h; simp at h
      | none =>
        intro i
        match i with
        | 0 =>
          intro hc
          obtain ⟨hle, heq⟩ := hc
          exact h0 ⟨by simpa using hle, by simpa using heq⟩
        | i' + 1 =>
          intro hc
          exact ih hfi i' (occursAt_cons_succ.mp hc)

theorem findSubstr_of_noOcc {q s : Str} (h : NoOcc q s) : findSubstr q s = none := by
  match hfi : findSubstr q s with
  | none => rfl
  | some i => exact absurd (findSubstr_some hfi).1 (h i)

theorem findSubstr_of_unique {q s : Str} {i : Nat} (h : UniqueOccAt q s i) :
    findSubstr q s = some i := by
  match hfi : findSubstr q s with
  | none => exact absurd h.1 (findSubstr_none hfi i)
  | some j => rw [h.2 j (findSubstr_some hfi).1]

end AgentMd

namespace AgentMd

/-! ### Marker structure lemmas -/

theorem length_startMarker (sid : Str) : (getStartMarker sid).length = sid.length + 26 := by
  simp [getStartMarker, startMarkerPre, markerSuffix, strOf]

theorem length_endMarker (sid : Str) : (getEndMarker sid).length = sid.length + 24 := by
  simp [getEndMarker, endMarkerPre, markerSuffix, strOf]

theorem marker_drop1_lt_free {p sid : Str} (hl : 1 ≤ p.length)
    (hp : '<' ∉ p.drop 1) (hsid : '<' ∉ sid) :
    '<' ∉ (p ++ sid ++ markerSuffix).drop 1 := by
  intro hm
  rw [List.append_assoc, List.drop_append_of_le_length hl] at hm
  rcases List.mem_append.mp hm with h | h
  · exact hp h
  · rcases List.mem_append.mp h with h' | h'
    · exact hsid h'
    · exact absurd h' (by decide)

theorem marker_lt_pos {p sid : Str} (hl : 1 ≤ p.length) (hp : '<' ∉ p.drop 1)
    (hsid : '<' ∉ sid) {k : Nat}
    (hk : (p ++ sid ++ markerSuffix)[k]? = some '<') : k = 0 := by
  match k with
  | 0 => rfl
  | k' + 1 =>
    exfalso
    have h1 : ((p ++ sid ++ markerSuffix).drop 1)[k']? = some '<' := by
      rw [List.getElem?_drop, Nat.add_comm 1 k']
      exact hk
    exact marker_drop1_lt_free hl hp hsid (List.getElem?_mem h1)

theorem marker_head {p sid : Str} (hp0 : p[0]? = some '<') :
    (p ++ sid ++ markerSuffix)[0]? = some '<' := by
  have hl : 0 < p.length := by
    cases p with
    | nil => simp at hp0
    | cons a t => simp
  rw [List.append_assoc, List.getElem?_append_left hl]
  exact hp0

theorem startMarker_lt_pos {sid : Str} (hsid : '<' ∉ sid) {k : Nat}
    (hk : (getStartMarker sid)[k]? = some '<') : k = 0 :=
  marker_lt_pos (p := startMarkerPre) (by decide) (by decide) hsid hk

theorem endMarker_lt_pos {sid : Str} (hsid : '<' ∉ sid) {k : Nat}
    (hk : (getEndMarker sid)[k]? = some '<') : k = 0 :=
  marker_lt_pos (p := endMarkerPre) (by decide) (by decide) hsid hk

theorem startMarker_head (sid : Str) : (getStartMarker sid)[0]? = some '<' :=
  marker_head (p := startMarkerPre) (by decide)

theorem endMarker_head (sid : Str) : (getEndMarker sid)[0]? = some '<' :=
  marker_head (p := endMarkerPre) (by decide)

theorem nl_not_mem_marker {p sid : Str} (hp : '\n' ∉ p) (hsid : '\n' ∉ sid) :
    '\n' ∉ (p ++ sid ++ markerSuffix) := by
  intro hm
  rcases List.mem_append.mp hm with h | h
  · rcases List.mem_append.mp h with h' | h'
    · exact hp h'
    · exact hsid h'
  · exact absurd h (by decide)

theorem nl_not_mem_startMarker {sid : Str} (hsid : '\n' ∉ sid) :
    '\n' ∉ getStartMarker sid :=
  nl_not_mem_marker (p := startMarkerPre) (by decide) hsid

theorem nl_not_mem_endMarker {sid : Str} (hsid : '\n' ∉ sid) :
    '\n' ∉ getEndMarker sid :=
  nl_not_mem_marker (p := endMarkerPre) (by decide) hsid

theorem marker_last {p sid : Str} :
    (p ++ sid ++ markerSuffix)[(p ++ sid ++ markerSuffix).length - 1]? = some '>' := by
  have hlen : (p ++ sid ++ markerSuffix).length = p.length + sid.length + 4 := by
    simp [markerSuffix, strOf]
    omega
  rw [hlen]
  have h3 : (p ++ sid).length ≤ p.length + sid.length + 4 - 1 := by
    simp only [List.length_append]; omega
  rw [List.getElem?_append_right h3]
  have h4 : p.length + sid.length + 4 - 1 - (p ++ sid).length = 3 := by
    simp only [List.length_append]; omega
  rw [h4]
  decide

theorem startMarker_last (sid : Str) :
    (getStartMarker sid)[(getStartMarker sid).length - 1]? = some '>' :=
  marker_last (p := startMarkerPre)

theorem endMarker_last (sid : Str) :
    (getEndMarker sid)[(getEndMarker sid).length - 1]? = some '>' :=
  marker_last (p := endMarkerPre)

end AgentMd

namespace AgentMd

/-! ### Marker mismatch lemmas -/

theorem length_startMarkerPre : startMarkerPre.length = 22 := by decide

theorem length_endMarkerPre : endMarkerPre.length = 20 := by decide

theorem markerRest_pre (p sid rest : Str) {k : Nat} (hk : k < p.length) :
    ((p ++ sid ++ markerSuffix) ++ rest)[k]? = p[k]? := by
  have h1 : (p ++ sid ++ markerSuffix) ++ rest = p ++ (sid ++ (markerSuffix ++ rest)) := by
    simp [List.append_assoc]
  rw [h1, List.getElem?_append_left hk]

theorem markerRest_sid (p sid rest : Str) {k : Nat} (hk : k < sid.length) :
    ((p ++ sid ++ markerSuffix) ++ rest)[p.length + k]? = sid[k]? := by
  have h1 : (p ++ sid ++ markerSuffix) ++ rest = p ++ (sid ++ (markerSuffix ++ rest)) := by
    simp [List.append_assoc]
  rw [h1, List.getElem?_append_right (by omega)]
  have h2 : p.length + k - p.length = k := by omega
  rw [h2, List.getElem?_append_left hk]

theorem markerRest_space (p sid rest : Str) :
    ((p ++ sid ++ markerSuffix) ++ rest)[p.length + sid.length]? = some ' ' := by
  have h1 : (p ++ sid ++ markerSuffix) ++ rest = (p ++ sid) ++ (markerSuffix ++ rest) := by
    simp [List.append_assoc]
  rw [h1, List.getElem?_append_right (by simp)]
  have h2 : p.length + sid.length - (p ++ sid).length = 0 := by simp
  rw [h2]
  have h3 : (0 : Nat) < markerSuffix.length := by decide
  rw [List.getElem?_append_left h3]
  decide

theorem startM_at_startM {x y rest : Str} (hx : goodId x) (hy : goodId y)
    (h : occursAt (getStartMarker y) (getStartMarker x ++ rest) 0) : y = x := by
  rcases Nat.lt_trichotomy y.length x.length with hlt | heq | hgt
  · exfalso
    have hk : startMarkerPre.length + y.length < (getStartMarker y).length := by
      rw [length_startMarkerPre, length_startMarker]; omega
    have h1 := occursAt_char h hk
    simp only [Nat.zero_add] at h1
    have hq : (getStartMarker y)[startMarkerPre.length + y.length]? = some ' ' := by
      unfold getStartMarker
      rw [← List.append_nil (startMarkerPre ++ y ++ markerSuffix)]
      exact markerRest_space startMarkerPre y []
    have hs : (getStartMarker x ++ rest)[startMarkerPre.length + y.length]? = x[y.length]? := by
      unfold getStartMarker
      exact markerRest_sid startMarkerPre x rest hlt
    rw [hq, hs] at h1
    exact hx.2.1 (List.getElem?_mem h1)
  · obtain ⟨hle, heq2⟩ := h
    rw [List.drop_zero] at heq2
    have hlen : (getStartMarker y).length = (getStartMarker x).length := by
      rw [length_startMarker, length_startMarker, heq]
    rw [hlen, List.take_left] at heq2
    unfold getStartMarker at heq2
    exact (List.append_cancel_left (List.append_cancel_right heq2)).symm
  · exfalso
    have hk : startMarkerPre.length + x.length < (getStartMarker y).length := by
      rw [length_startMarkerPre, length_startMarker]; omega
    have h1 := occursAt_char h hk
    simp only [Nat.zero_add] at h1
    have hq : (getStartMarker y)[startMarkerPre.length + x.length]? = y[x.length]? := by
      unfold getStartMarker
      rw [← List.append_nil (startMarkerPre ++ y ++ markerSuffix)]
      exact markerRest_sid startMarkerPre y [] hgt
    have hs : (getStartMarker x ++ rest)[startMarkerPre.length + x.length]? = some ' ' := by
      unfold getStartMarker
      exact markerRest_space startMarkerPre x rest
    rw [hq, hs] at h1
    exact hy.2.1 (List.getElem?_mem h1.symm)

theorem endM_at_endM {x y rest : Str} (hx : goodId x) (hy : goodId y)
    (h : occursAt (getEndMarker y) (getEndMarker x ++ rest) 0) : y = x := by
  rcases Nat.lt_trichotomy y.length x.length with hlt | heq | hgt
  · exfalso
    have hk : endMarkerPre.length + y.length < (getEndMarker y).length := by
      rw [length_endMarkerPre, length_endMarker]; omega
    have h1 := occursAt_char h hk
    simp only [Nat.zero_add] at h1
    have hq : (getEndMarker y)[endMarkerPre.length + y.length]? = some ' ' := by
      unfold getEndMarker
      rw [← List.append_nil (endMarkerPre ++ y ++ markerSuffix)]
      exact markerRest_space endMarkerPre y []
    have hs : (getEndMarker x ++ rest)[endMarkerPre.length + y.length]? = x[y.length]? := by
      unfold getEndMarker
      exact markerRest_sid endMarkerPre x rest hlt
    rw [hq, hs] at h1
    exact hx.2.1 (List.getElem?_mem h1)
  · obtain ⟨hle, heq2⟩ := h
    rw [List.drop_zero] at heq2
    have hlen : (getEndMarker y).length = (getEndMarker x).length := by
      rw [length_endMarker, length_endMarker, heq]
    rw [hlen, List.take_left] at heq2
    unfold getEndMarker at heq2
    exact (List.append_cancel_left (List.append_cancel_right heq2)).symm
  · exfalso
    have hk : endMarkerPre.length + x.length < (getEndMarker y).length := by
      rw [length_endMarkerPre, length_endMarker]; omega
    have h1 := occursAt_char h hk
    simp only [Nat.zero_add] at h1
    have hq : (getEndMarker y)[endMarkerPre.length + x.length]? = y[x.length]? := by
      unfold getEndMarker
      rw [← List.append_nil (endMarkerPre ++ y ++ markerSuffix)]
      exact markerRest_sid endMarkerPre y [] hgt
    have hs : (getEndMarker x ++ rest)[endMarkerPre.length + x.length]? = some ' ' := by
      unfold getEndMarker
      exact markerRest_space endMarkerPre x rest
    rw [hq, hs] at h1
    exact hy.2.1 (List.getElem?_mem h1.symm)

theorem not_endM_at_startM (x y rest : Str) :
    ¬ occursAt (getEndMarker y) (getStartMarker x ++ rest) 0 := by
  intro h
  have hk : (16 : Nat) < (getEndMarker y).length := by rw [length_endMarker]; omega
  have h1 := occursAt_char h hk
  simp only [Nat.zero_add] at h1
  have hq : (getEndMarker y)[16]? = some 'E' := by
    unfold getEndMarker
    rw [← List.append_nil (endMarkerPre ++ y ++ markerSuffix)]
    rw [markerRest_pre endMarkerPre y [] (by rw [length_endMarkerPre]; omega)]
    decide
  have hs : (getStartMarker x ++ rest)[16]? = some 'S' := by
    unfold getStartMarker
    rw [markerRest_pre startMarkerPre x rest (by rw [length_startMarkerPre]; omega)]
    decide
  rw [hq, hs] at h1
  exact absurd h1 (by decide)

theorem not_startM_at_endM (x y rest : Str) :
    ¬ occursAt (getStartMarker y) (getEndMarker x ++ rest) 0 := by
  intro h
  have hk : (16 : Nat) < (getStartMarker y).length := by rw [length_startMarker]; omega
  have h1 := occursAt_char h hk
  simp only [Nat.zero_add] at h1
  have hq : (getStartMarker y)[16]? = some 'S' := by
    unfold getStartMarker
    rw [← List.append_nil (startMarkerPre ++ y ++ markerSuffix)]
    rw [markerRest_pre startMarkerPre y [] (by rw [length_startMarkerPre]; omega)]
    decide
  have hs : (getEndMarker x ++ rest)[16]? = some 'E' := by
    unfold getEndMarker
    rw [markerRest_pre endMarkerPre x rest (by rw [length_endMarkerPre]; omega)]
    decide
  rw [hq, hs] at h1
  exact absurd h1 (by decide)

end AgentMd

namespace AgentMd

/-! ### Occurrence classification around an inserted block -/

theorem block_lt_positions {sid mid : Str} (hsid : '<' ∉ sid) (hmid : '<' ∉ mid)
    {k : Nat}
    (hk : (getStartMarker sid ++ mid ++ getEndMarker sid)[k]? = some '<') :
    k = 0 ∨ k = (getStartMarker sid).length + mid.length := by
  by_cases h1 : k < (getStartMarker sid).length
  · left
    have hrw : getStartMarker sid ++ mid ++ getEndMarker sid =
        getStartMarker sid ++ (mid ++ getEndMarker sid) := by
      rw [List.append_assoc]
    rw [hrw, List.getElem?_append_left h1] at hk
    exact startMarker_lt_pos hsid hk
  · by_cases h2 : k < (getStartMarker sid).length + mid.length
    · exfalso
      have hrw : getStartMarker sid ++ mid ++ getEndMarker sid =
          getStartMarker sid ++ (mid ++ getEndMarker sid) := by
        rw [List.append_assoc]
      rw [hrw, List.getElem?_append_right (by omega),
        List.getElem?_append_left (by omega)] at hk
      exact hmid (List.getElem?_mem hk)
    · right
      have hlen : (getStartMarker sid ++ mid).length =
          (getStartMarker sid).length + mid.length := by simp
      rw [List.getElem?_append_right (by rw [hlen]; omega)] at hk
      have h0 := endMarker_lt_pos hsid hk
      rw [hlen] at h0
      omega

theorem occ_classify {q : Str} (hq0 : q[0]? = some '<') (hqt : '<' ∉ q.drop 1)
    {sid mid : Str} (hsid : '<' ∉ sid) (hmid : '<' ∉ mid)
    {pre post : Str} {i : Nat}
    (h : occursAt q (pre ++ (getStartMarker sid ++ mid ++ getEndMarker sid) ++ post) i) :
    (i + q.length ≤ pre.length ∧ occursAt q pre i) ∨
    (pre.length + (getStartMarker sid ++ mid ++ getEndMarker sid).length ≤ i ∧
      occursAt q post
        (i - (pre.length + (getStartMarker sid ++ mid ++ getEndMarker sid).length))) ∨
    (i = pre.length ∧
      occursAt q ((getStartMarker sid ++ mid ++ getEndMarker sid) ++ post) 0) ∨
    (i = pre.length + (getStartMarker sid).length + mid.length ∧
      occursAt q (getEndMarker sid ++ post) 0) := by
  have hql : 0 < q.length := by
    cases q with
    | nil => simp at hq0
    | cons a t => simp
  have hassoc : pre ++ (getStartMarker sid ++ mid ++ getEndMarker sid) ++ post =
      pre ++ ((getStartMarker sid ++ mid ++ getEndMarker sid) ++ post) := by
    rw [List.append_assoc]
  rw [hassoc] at h
  by_cases c1 : i + q.length ≤ pre.length
  · exact Or.inl ⟨c1, occursAt_of_take h c1⟩
  by_cases c2 : i < pre.length
  · exfalso
    have hk : pre.length - i < q.length := by omega
    have h1 := occursAt_char h hk
    have hidx : i + (pre.length - i) = pre.length := by omega
    rw [hidx] at h1
    have hs : (pre ++ ((getStartMarker sid ++ mid ++ getEndMarker sid) ++ post))[pre.length]? =
        some '<' := by
      rw [List.getElem?_append_right (Nat.le_refl _)]
      have h0 : pre.length - pre.length = 0 := by omega
      rw [h0]
      have hBpos : (0 : Nat) < (getStartMarker sid ++ mid ++ getEndMarker sid).length := by
        simp only [List.length_append, length_startMarker]
        omega
      rw [List.getElem?_append_left hBpos]
      have hSpos : (0 : Nat) < (getStartMarker sid ++ mid).length := by
        simp only [List.length_append, length_startMarker]
        omega
      rw [List.getElem?_append_left hSpos]
      rw [List.getElem?_append_left (by rw [length_startMarker]; omega)]
      exact startMarker_head sid
    rw [hs] at h1
    have hk0 : 0 < pre.length - i := by omega
    obtain ⟨k', hk'⟩ : ∃ k', pre.length - i = k' + 1 := ⟨pre.length - i - 1, by omega⟩
    rw [hk'] at h1
    have h2 : (q.drop 1)[k']? = some '<' := by
      rw [List.getElem?_drop, Nat.add_comm 1 k']
      exact h1.symm
    exact hqt (List.getElem?_mem h2)
  · push_neg at c1 c2
    by_cases c3 : i < pre.length + (getStartMarker sid ++ mid ++ getEndMarker sid).length
    · have hocc := occursAt_of_drop h c2
      have hj : i - pre.length < (getStartMarker sid ++ mid ++ getEndMarker sid).length := by
        omega
      have h1 := occursAt_char h (k := 0) hql
      rw [Nat.add_zero, hq0] at h1
      rw [List.getElem?_append_right c2, List.getElem?_append_left hj] at h1
      rcases block_lt_positions hsid hmid h1 with h4 | h4
      · refine Or.inr (Or.inr (Or.inl ⟨by omega, ?_⟩))
        rw [h4] at hocc
        exact hocc
      · refine Or.inr (Or.inr (Or.inr ⟨?_, ?_⟩))
        · have hlenS := length_startMarker sid
          omega
        · have hrw : (getStartMarker sid ++ mid ++ getEndMarker sid) ++ post =
              (getStartMarker sid ++ mid) ++ (getEndMarker sid ++ post) := by
            simp [List.append_assoc]
          rw [hrw] at hocc
          have hge : (getStartMarker sid ++ mid).length ≤ i - pre.length := by
            simp only [List.length_append]; omega
          have h5 := occursAt_of_drop hocc hge
          have h6 : i - pre.length - (getStartMarker sid ++ mid).length = 0 := by
            simp only [List.length_append]; omega
          rw [h6] at h5
          exact h5
    · push_neg at c3
      refine Or.inr (Or.inl ⟨c3, ?_⟩)
      have hocc := occursAt_of_drop h c2
      have h5 := occursAt_of_drop hocc
        (by omega : (getStartMarker sid ++ mid ++ getEndMarker sid).length ≤ i - pre.length)
      have h6 : i - pre.length - (getStartMarker sid ++ mid ++ getEndMarker sid).length =
          i - (pre.length + (getStartMarker sid ++ mid ++ getEndMarker sid).length) := by
        omega
      rw [h6] at h5
      exact h5

end AgentMd

namespace AgentMd

/-! ### Transfer and trimming lemmas -/

theorem occursAt_of_take_rev {q s : Str} {n i : Nat} (h : occursAt q (s.take n) i) :
    occursAt q s i := by
  have h2 := occursAt_append_left (s.drop n) h
  rw [List.take_append_drop] at h2
  exact h2

theorem occursAt_of_drop_rev {q s : Str} {n j : Nat} (hn : n ≤ s.length)
    (h : occursAt q (s.drop n) j) : occursAt q s (n + j) := by
  have h2 := occursAt_append_right (s.take n) h
  rw [List.take_append_drop] at h2
  rw [List.length_take, Nat.min_eq_left hn] at h2
  exact h2

theorem occursAt_pattern_take {q s : Str} {i m : Nat} (hm : m ≤ q.length)
    (h : occursAt q s i) : occursAt (q.take m) s i := by
  obtain ⟨hle, heq⟩ := h
  constructor
  · rw [List.length_take]; omega
  · rw [List.length_take, Nat.min_eq_left hm, ← heq, List.take_take,
      Nat.min_eq_left hm]

theorem startMarker_take_pre (sid : Str) :
    (getStartMarker sid).take startMarkerPre.length = startMarkerPre := by
  unfold getStartMarker
  rw [List.append_assoc, List.take_left]

theorem endMarker_take_pre (sid : Str) :
    (getEndMarker sid).take endMarkerPre.length = endMarkerPre := by
  unfold getEndMarker
  rw [List.append_assoc, List.take_left]

theorem occursAt_pre_of_startM {sid doc : Str} {i : Nat}
    (h : occursAt (getStartMarker sid) doc i) : occursAt startMarkerPre doc i := by
  have h2 := occursAt_pattern_take (m := startMarkerPre.length)
    (by rw [length_startMarker, length_startMarkerPre]; omega) h
  rw [startMarker_take_pre] at h2
  exact h2

theorem occursAt_pre_of_endM {sid doc : Str} {i : Nat}
    (h : occursAt (getEndMarker sid) doc i) : occursAt endMarkerPre doc i := by
  have h2 := occursAt_pattern_take (m := endMarkerPre.length)
    (by rw [length_endMarker, length_endMarkerPre]; omega) h
  rw [endMarker_take_pre] at h2
  exact h2

theorem jsTrimEnd_spec (s : Str) :
    s = jsTrimEnd s ++ (s.reverse.takeWhile jsIsWs).reverse := by
  unfold jsTrimEnd
  rw [← List.reverse_append, List.takeWhile_append_dropWhile, List.reverse_reverse]

theorem ws_of_mem_trimRest {s : Str} {c : Char}
    (h : c ∈ (s.reverse.takeWhile jsIsWs).reverse) : jsIsWs c = true := by
  rw [List.mem_reverse] at h
  exact List.mem_takeWhile_imp h

theorem occursAt_trimEnd_iff {q s : Str} {i : Nat} {qc : Char}
    (hlast : q[q.length - 1]? = some qc) (hws : jsIsWs qc = false) :
    occursAt q s i ↔ occursAt q (jsTrimEnd s) i := by
  have hql : 0 < q.length := by
    cases q with
    | nil => simp at hlast
    | cons a t => simp
  constructor
  · intro h
    have hspec := jsTrimEnd_spec s
    rw [hspec] at h
    by_cases hin : i + q.length ≤ (jsTrimEnd s).length
    · exact occursAt_of_take h hin
    · exfalso
      have hj : (jsTrimEnd s).length ≤ i + (q.length - 1) := by omega
      have h1 := occursAt_char h (k := q.length - 1) (by omega)
      rw [hlast] at h1
      rw [List.getElem?_append_right hj] at h1
      have h2 := ws_of_mem_trimRest (List.getElem?_mem h1)
      rw [h2] at hws
      cases hws
  · intro h
    have hspec := jsTrimEnd_spec s
    rw [hspec]
    exact occursAt_append_left _ h

theorem occ_in_append_nn {q a : Str} {j : Nat} (hnl : '\n' ∉ q) (hql : 0 < q.length)
    (h : occursAt q (a ++ strOf "\n\n") j) : occursAt q a j := by
  by_cases hin : j + q.length ≤ a.length
  · exact occursAt_of_take h hin
  · exfalso
    have hlen : (a ++ strOf "\n\n").length = a.length + 2 := by simp [strOf]
    have hb := h.1
    rw [hlen] at hb
    by_cases hj : j ≤ a.length
    · have hk : a.length - j < q.length := by omega
      have h1 := occursAt_char h hk
      have hidx : j + (a.length - j) = a.length := by omega
      rw [hidx] at h1
      rw [List.getElem?_append_right (Nat.le_refl _)] at h1
      have h0 : a.length - a.length = 0 := by omega
      rw [h0] at h1
      have h1' : (strOf "\n\n")[0]? = some '\n' := by decide
      rw [h1'] at h1
      exact hnl (List.getElem?_mem h1.symm)
    · push_neg at hj
      have hj2 : j = a.length + 1 := by omega
      have h1 := occursAt_char h (k := 0) hql
      rw [Nat.add_zero] at h1
      rw [hj2, List.getElem?_append_right (by omega)] at h1
      have h0 : a.length + 1 - a.length = 1 := by omega
      rw [h0] at h1
      have h1' : (strOf "\n\n")[1]? = some '\n' := by decide
      rw [h1'] at h1
      exact hnl (List.getElem?_mem h1.symm)

theorem startMarker_drop1 {y : Str} (hy : goodId y) :
    '<' ∉ (getStartMarker y).drop 1 := by
  unfold getStartMarker
  exact marker_drop1_lt_free (by decide) (by decide) hy.1

theorem endMarker_drop1 {y : Str} (hy : goodId y) :
    '<' ∉ (getEndMarker y).drop 1 := by
  unfold getEndMarker
  exact marker_drop1_lt_free (by decide) (by decide) hy.1

theorem blockMid_lt_free {d r c : Str} (hd : ltFree d) (hr : ltFree r) (hc : ltFree c) :
    '<' ∉ blockMid d r c := by
  unfold blockMid
  intro hm
  simp only [List.mem_append] at hm
  rcases hm with ((((((((h | h) | h) | h) | h) | h) | h) | h) | h)
  · exact absurd h (by decide)
  · exact hd h
  · exact absurd h (by decide)
  · exact hr h
  · exact absurd h (by decide)
  · exact hd h
  · exact absurd h (by decide)
  · exact hc h
  · exact absurd h (by decide)

theorem SE_disjoint {y doc : Str} {sy ey : Nat} (hy : goodId y)
    (hs : occursAt (getStartMarker y) doc sy) (he : occursAt (getEndMarker y) doc ey)
    (hlt : sy < ey) : sy + (getStartMarker y).length ≤ ey := by
  by_contra hc
  push_neg at hc
  have hk : ey - sy < (getStartMarker y).length := by omega
  have h1 := occursAt_char hs hk
  have hidx : sy + (ey - sy) = ey := by omega
  rw [hidx] at h1
  have h2 := occursAt_char he (k := 0) (by rw [length_endMarker]; omega)
  rw [Nat.add_zero, endMarker_head] at h2
  rw [h2] at h1
  have h3 := startMarker_lt_pos hy.1 h1.symm
  omega

/-! ### Branch computation lemmas for `upsert` -/

theorem upsert_eq_replace {doc sid d r c : Str} {si ei : Nat}
    (hS : UniqueOccAt (getStartMarker sid) doc si)
    (hE : UniqueOccAt (getEndMarker sid) doc ei) (hlt : si < ei) :
    upsert doc sid d r c = .ok (doc.take si ++ generateIndexBlock sid d r c ++
      doc.drop (ei + (getEndMarker sid).length)) := by
  unfold upsert updateContent
  dsimp only
  rw [findSubstr_of_unique hS, findSubstr_of_unique hE]
  simp only [if_pos hlt]

theorem upsert_eq_append {doc sid d r c : Str}
    (hS : NoOcc (getStartMarker sid) doc) :
    upsert doc sid d r c = .ok (jsTrimEnd doc ++ strOf "\n\n" ++
      generateIndexBlock sid d r c ++ strOf "\n") := by
  unfold upsert updateContent
  dsimp only
  rw [findSubstr_of_noOcc hS]

theorem upsert_eq_malformed {doc sid d r c : Str} {si : Nat}
    (hS : occursAt (getStartMarker sid) doc si)
    (hE : NoOcc (getEndMarker sid) doc) :
    upsert doc sid d r c = .error .malformedBlock := by
  have hex : ∃ j, findSubstr (getStartMarker sid) doc = some j := by
    match hfi : findSubstr (getStartMarker sid) doc with
    | some j => exact ⟨j, rfl⟩
    | none => exact absurd hS (findSubstr_none hfi si)
  obtain ⟨j, hj⟩ := hex
  unfold upsert updateContent
  dsimp only
  rw [hj, findSubstr_of_noOcc hE]

end AgentMd

namespace AgentMd

/-! ### Shape of a successful upsert result -/

theorem res_unique_S {sid mid : Str} (hsid : goodId sid) (hmid : '<' ∉ mid)
    {a z : Str}
    (hpre : ∀ j, ¬ occursAt (getStartMarker sid) a j)
    (hpost : ∀ j, ¬ occursAt (getStartMarker sid) z j) :
    UniqueOccAt (getStartMarker sid)
      (a ++ (getStartMarker sid ++ mid ++ getEndMarker sid) ++ z) a.length := by
  constructor
  · have heq : a ++ (getStartMarker sid ++ mid ++ getEndMarker sid) ++ z =
        a ++ getStartMarker sid ++ (mid ++ (getEndMarker sid ++ z)) := by
      simp [List.append_assoc]
    exact occursAt_of_append heq
  · intro j hj
    rcases occ_classify (startMarker_head sid) (startMarker_drop1 hsid) hsid.1 hmid hj with
      ⟨_, h⟩ | ⟨_, h⟩ | ⟨h2, _⟩ | ⟨_, h⟩
    · exact absurd h (hpre j)
    · exact absurd h (hpost _)
    · exact h2
    · exact absurd h (not_startM_at_endM sid sid z)

theorem res_unique_E {sid mid : Str} (hsid : goodId sid) (hmid : '<' ∉ mid)
    {a z : Str}
    (hpre : ∀ j, ¬ occursAt (getEndMarker sid) a j)
    (hpost : ∀ j, ¬ occursAt (getEndMarker sid) z j) :
    UniqueOccAt (getEndMarker sid)
      (a ++ (getStartMarker sid ++ mid ++ getEndMarker sid) ++ z)
      (a.length + (getStartMarker sid).length + mid.length) := by
  constructor
  · have heq : a ++ (getStartMarker sid ++ mid ++ getEndMarker sid) ++ z =
        (a ++ getStartMarker sid ++ mid) ++ getEndMarker sid ++ z := by
      simp [List.append_assoc]
    have h0 := occursAt_of_append heq
    simp only [List.length_append] at h0
    exact h0
  · intro j hj
    rcases occ_classify (endMarker_head sid) (endMarker_drop1 hsid) hsid.1 hmid hj with
      ⟨_, h⟩ | ⟨_, h⟩ | ⟨_, h⟩ | ⟨h2, _⟩
    · exact absurd h (hpre j)
    · exact absurd h (hpost _)
    · exfalso
      have hrw : (getStartMarker sid ++ mid ++ getEndMarker sid) ++ z =
          getStartMarker sid ++ (mid ++ (getEndMarker sid ++ z)) := by
        simp [List.append_assoc]
      rw [hrw] at h
      exact not_endM_at_startM sid sid _ h
    · exact h2

theorem upsert_ok_cases {doc sid d r c res : Str} (hsid : goodId sid) (hwf : WFid doc sid)
    (hok : upsert doc sid d r c = .ok res) :
    (NoOcc (getStartMarker sid) doc ∧ NoOcc (getEndMarker sid) doc ∧
      res = jsTrimEnd doc ++ strOf "\n\n" ++ generateIndexBlock sid d r c ++ strOf "\n") ∨
    (∃ si ei, UniqueOccAt (getStartMarker sid) doc si ∧
      UniqueOccAt (getEndMarker sid) doc ei ∧ si < ei ∧
      si + (getStartMarker sid).length ≤ ei ∧
      ei + (getEndMarker sid).length ≤ doc.length ∧
      res = doc.take si ++ generateIndexBlock sid d r c ++
        doc.drop (ei + (getEndMarker sid).length)) := by
  rcases hwf with ⟨hnS, hnE⟩ | ⟨si, ei, hS, hE, hlt⟩
  · left
    rw [upsert_eq_append hnS] at hok
    exact ⟨hnS, hnE, (Except.ok.inj hok).symm⟩
  · right
    refine ⟨si, ei, hS, hE, hlt, SE_disjoint hsid hS.1 hE.1 hlt, hE.1.1, ?_⟩
    rw [upsert_eq_replace hS hE hlt] at hok
    exact (Except.ok.inj hok).symm

theorem upsert_ok_shape {doc sid d r c res : Str} (hsid : goodId sid)
    (hd : ltFree d) (hr : ltFree r) (hc : ltFree c) (hwf : WFid doc sid)
    (hok : upsert doc sid d r c = .ok res) :
    ∃ preL postL : Str,
      res = preL ++ (getStartMarker sid ++ blockMid d r c ++ getEndMarker sid) ++ postL ∧
      UniqueOccAt (getStartMarker sid) res preL.length ∧
      UniqueOccAt (getEndMarker sid) res
        (preL.length + (getStartMarker sid).length + (blockMid d r c).length) := by
  have hmid := blockMid_lt_free hd hr hc
  rcases upsert_ok_cases hsid hwf hok with
    ⟨hnS, hnE, hres⟩ | ⟨si, ei, hS, hE, hlt, hdisj, hlen, hres⟩
  · have hresB : res = (jsTrimEnd doc ++ strOf "\n\n") ++
        (getStartMarker sid ++ blockMid d r c ++ getEndMarker sid) ++ strOf "\n" := by
      rw [hres]
      unfold generateIndexBlock
      simp [List.append_assoc]
    refine ⟨jsTrimEnd doc ++ strOf "\n\n", strOf "\n", hresB, ?_, ?_⟩
    · rw [hresB]
      apply res_unique_S hsid hmid
      · intro j hj
        have h2 := occ_in_append_nn (nl_not_mem_startMarker hsid.2.2)
          (by rw [length_startMarker]; omega) hj
        exact hnS j ((occursAt_trimEnd_iff (startMarker_last sid) (by decide)).mpr h2)
      · intro j hj
        have hb := hj.1
        rw [length_startMarker] at hb
        have h1 : (strOf "\n").length = 1 := by decide
        rw [h1] at hb
        omega
    · rw [hresB]
      apply res_unique_E hsid hmid
      · intro j hj
        have h2 := occ_in_append_nn (nl_not_mem_endMarker hsid.2.2)
          (by rw [length_endMarker]; omega) hj
        exact hnE j ((occursAt_trimEnd_iff (endMarker_last sid) (by decide)).mpr h2)
      · intro j hj
        have hb := hj.1
        rw [length_endMarker] at hb
        have h1 : (strOf "\n").length = 1 := by decide
        rw [h1] at hb
        omega
  · have hsiLe : si ≤ doc.length := by
      have := hS.1.1
      rw [length_startMarker] at this
      omega
    have hresB : res = doc.take si ++
        (getStartMarker sid ++ blockMid d r c ++ getEndMarker sid) ++
        doc.drop (ei + (getEndMarker sid).length) := by
      rw [hres]; rfl
    refine ⟨doc.take si, doc.drop (ei + (getEndMarker sid).length), hresB, ?_, ?_⟩
    · rw [hresB]
      have hcc := res_unique_S hsid hmid
        (a := doc.take si) (z := doc.drop (ei + (getEndMarker sid).length))
        (fun j hj => by
          have hdoc := occursAt_of_take_rev hj
          have hj2 := hS.2 j hdoc
          have hb := hj.1
          rw [List.length_take, length_startMarker] at hb
          have hmin := Nat.min_le_left si doc.length
          omega)
        (fun j hj => by
          have hdoc := occursAt_of_drop_rev hlen hj
          have hj2 := hS.2 _ hdoc
          rw [length_endMarker] at hj2
          omega)
      rw [List.length_take, Nat.min_eq_left hsiLe] at hcc
      rw [List.length_take, Nat.min_eq_left hsiLe]
      exact hcc
    · rw [hresB]
      have hcc := res_unique_E hsid hmid
        (a := doc.take si) (z := doc.drop (ei + (getEndMarker sid).length))
        (fun j hj => by
          have hdoc := occursAt_of_take_rev hj
          have hj2 := hE.2 j hdoc
          have hb := hj.1
          rw [List.length_take, length_endMarker] at hb
          have hmin := Nat.min_le_left si doc.length
          omega)
        (fun j hj => by
          have hdoc := occursAt_of_drop_rev hlen hj
          have hj2 := hE.2 _ hdoc
          rw [length_endMarker] at hj2
          omega)
      rw [List.length_take, Nat.min_eq_left hsiLe] at hcc
      rw [List.length_take, Nat.min_eq_left hsiLe]
      exact hcc

theorem upsert_twice {doc sid d r c res : Str} (hsid : goodId sid)
    (hd : ltFree d) (hr : ltFree r) (hc : ltFree c) (hwf : WFid doc sid)
    (hok : upsert doc sid d r c = .ok res) :
    upsert res sid d r c = .ok res := by
  obtain ⟨preL, postL, hres, hUS, hUE⟩ := upsert_ok_shape hsid hd hr hc hwf hok
  have hlt : preL.length <
      preL.length + (getStartMarker sid).length + (blockMid d r c).length := by
    rw [length_startMarker]; omega
  rw [upsert_eq_replace hUS hUE hlt]
  congr 1
  rw [hres]
  have h1 : (preL ++ (getStartMarker sid ++ blockMid d r c ++ getEndMarker sid) ++
      postL).take preL.length = preL := by
    rw [List.append_assoc, List.take_left]
  have h2 : (preL ++ (getStartMarker sid ++ blockMid d r c ++ getEndMarker sid) ++
      postL).drop (preL.length + (getStartMarker sid).length + (blockMid d r c).length
        + (getEndMarker sid).length) = postL := by
    have hidx : preL.length + (getStartMarker sid).length + (blockMid d r c).length +
        (getEndMarker sid).length =
        (preL ++ (getStartMarker sid ++ blockMid d r c ++ getEndMarker sid)).length := by
      simp only [List.length_append]
      omega
    rw [hidx, List.drop_left]
  rw [h1, h2]
  rfl

end AgentMd

namespace AgentMd

/-! ### Occurrence index and block counting lemmas -/

theorem mem_occIdx {q s : Str} {j : Nat} : j ∈ occIdx q s ↔ occursAt q s j := by
  unfold occIdx
  rw [List.mem_filter, List.mem_range]
  constructor
  · rintro ⟨_, h2⟩
    exact of_decide_eq_true h2
  · intro h
    exact ⟨by have := h.1; omega, decide_eq_true h⟩

theorem occIdx_nodup (q s : Str) : (occIdx q s).Nodup :=
  (List.nodup_range _).filter _

theorem length_filter_mono {α : Type} {p q : α → Bool} (l : List α)
    (h : ∀ a ∈ l, p a = true → q a = true) :
    (l.filter p).length ≤ (l.filter q).length := by
  induction l with
  | nil => simp
  | cons a t ih =>
    have ih' := ih (fun x hx hp => h x (List.mem_cons_of_mem a hx) hp)
    by_cases hp : p a = true
    · have hq := h a (List.mem_cons_self a t) hp
      simp only [List.filter_cons, hp, hq, if_true, List.length_cons]
      omega
    · simp only [List.filter_cons, if_neg hp]
      by_cases hq : q a = true
      · simp only [hq, if_true, List.length_cons]
        omega
      · simp only [hq, if_false]
        exact ih'

theorem activeBlockCount_le_preCount (doc sid : Str) :
    activeBlockCount doc sid ≤ (occIdx startMarkerPre doc).length := by
  unfold activeBlockCount
  calc ((occIdx (getStartMarker sid) doc).filter _).length
      ≤ (occIdx (getStartMarker sid) doc).length := List.length_filter_le _ _
    _ ≤ (occIdx startMarkerPre doc).length := by
        unfold occIdx
        apply length_filter_mono
        intro a _ hp
        exact decide_eq_true (occursAt_pre_of_startM (of_decide_eq_true hp))

theorem length_le_one_of_all_eq {l : List Nat} (hnd : l.Nodup) {a : Nat}
    (h : ∀ x ∈ l, x = a) : l.length ≤ 1 := by
  match l with
  | [] => simp
  | [x] => simp
  | x :: y :: t =>
    exfalso
    have hx := h x (by simp)
    have hy := h y (by simp)
    have : x ≠ y := by
      intro hxy
      have := List.nodup_cons.mp hnd
      exact this.1 (hxy ▸ List.mem_cons_self y t)
    omega

theorem activeBlockCount_le_one_of_WFid {doc sid : Str} (h : WFid doc sid) :
    activeBlockCount doc sid ≤ 1 := by
  unfold activeBlockCount
  rcases h with ⟨hnS, _⟩ | ⟨si, ei, hS, _, _⟩
  · have hempty : occIdx (getStartMarker sid) doc = [] := by
      unfold occIdx
      rw [List.filter_eq_nil_iff]
      intro a _
      simp only [decide_eq_true_eq]
      exact hnS a
    rw [hempty]
    simp
  · calc ((occIdx (getStartMarker sid) doc).filter _).length
        ≤ (occIdx (getStartMarker sid) doc).length := List.length_filter_le _ _
      _ ≤ 1 := by
          apply length_le_one_of_all_eq (occIdx_nodup _ _) (a := si)
          intro x hx
          exact hS.2 x (mem_occIdx.mp hx)

end AgentMd

namespace AgentMd

/-! ### Tidy preservation: append case -/

theorem append_tidy {doc sid d r c : Str} (ht : Tidy doc) (hsid : goodId sid)
    (hd : ltFree d) (hr : ltFree r) (hc : ltFree c)
    (hnS : NoOcc (getStartMarker sid) doc) (hnE : NoOcc (getEndMarker sid) doc) :
    Tidy ((jsTrimEnd doc ++ strOf "\n\n") ++
      (getStartMarker sid ++ blockMid d r c ++ getEndMarker sid) ++ strOf "\n") := by
  have hmid := blockMid_lt_free hd hr hc
  have hnn2 : (strOf "\n\n").length = 2 := by decide
  have hnl1 : (strOf "\n").length = 1 := by decide
  -- unique occurrences of sid's own markers in the result
  have hUS : UniqueOccAt (getStartMarker sid)
      ((jsTrimEnd doc ++ strOf "\n\n") ++
        (getStartMarker sid ++ blockMid d r c ++ getEndMarker sid) ++ strOf "\n")
      (jsTrimEnd doc ++ strOf "\n\n").length := by
    apply res_unique_S hsid hmid
    · intro j hj
      have h2 := occ_in_append_nn (nl_not_mem_startMarker hsid.2.2)
        (by rw [length_startMarker]; omega) hj
      exact hnS j ((occursAt_trimEnd_iff (startMarker_last sid) (by decide)).mpr h2)
    · intro j hj
      have hb := hj.1
      rw [length_startMarker, hnl1] at hb
      omega
  have hUE : UniqueOccAt (getEndMarker sid)
      ((jsTrimEnd doc ++ strOf "\n\n") ++
        (getStartMarker sid ++ blockMid d r c ++ getEndMarker sid) ++ strOf "\n")
      ((jsTrimEnd doc ++ strOf "\n\n").length + (getStartMarker sid).length +
        (blockMid d r c).length) := by
    apply res_unique_E hsid hmid
    · intro j hj
      have h2 := occ_in_append_nn (nl_not_mem_endMarker hsid.2.2)
        (by rw [length_endMarker]; omega) hj
      exact hnE j ((occursAt_trimEnd_iff (endMarker_last sid) (by decide)).mpr h2)
    · intro j hj
      have hb := hj.1
      rw [length_endMarker, hnl1] at hb
      omega
  -- classification of start-marker occurrences of any marker-safe identifier
  have hA3 : ∀ y, goodId y → ∀ i, occursAt (getStartMarker y)
      ((jsTrimEnd doc ++ strOf "\n\n") ++
        (getStartMarker sid ++ blockMid d r c ++ getEndMarker sid) ++ strOf "\n") i →
      occursAt (getStartMarker y) doc i ∨
        (y = sid ∧ i = (jsTrimEnd doc ++ strOf "\n\n").length) := by
    intro y hy i hi
    rcases occ_classify (startMarker_head y) (startMarker_drop1 hy) hsid.1 hmid hi with
      ⟨_, h⟩ | ⟨_, h⟩ | ⟨hieq, h⟩ | ⟨_, h⟩
    · left
      have h2 := occ_in_append_nn (nl_not_mem_startMarker hy.2.2)
        (by rw [length_startMarker]; omega) h
      exact (occursAt_trimEnd_iff (startMarker_last y) (by decide)).mpr h2
    · exfalso
      have hb := h.1
      rw [length_startMarker, hnl1] at hb
      omega
    · right
      refine ⟨?_, hieq⟩
      have hrw : (getStartMarker sid ++ blockMid d r c ++ getEndMarker sid) ++
          strOf "\n" = getStartMarker sid ++
            (blockMid d r c ++ (getEndMarker sid ++ strOf "\n")) := by
        simp [List.append_assoc]
      rw [hrw] at h
      exact startM_at_startM hsid hy h
    · exact absurd h (not_startM_at_endM sid y _)
  have hA4 : ∀ y, goodId y → ∀ i, occursAt (getEndMarker y)
      ((jsTrimEnd doc ++ strOf "\n\n") ++
        (getStartMarker sid ++ blockMid d r c ++ getEndMarker sid) ++ strOf "\n") i →
      occursAt (getEndMarker y) doc i ∨
        (y = sid ∧ i = (jsTrimEnd doc ++ strOf "\n\n").length +
          (getStartMarker sid).length + (blockMid d r c).length) := by
    intro y hy i hi
    rcases occ_classify (endMarker_head y) (endMarker_drop1 hy) hsid.1 hmid hi with
      ⟨_, h⟩ | ⟨_, h⟩ | ⟨_, h⟩ | ⟨hieq, h⟩
    · left
      have h2 := occ_in_append_nn (nl_not_mem_endMarker hy.2.2)
        (by rw [length_endMarker]; omega) h
      exact (occursAt_trimEnd_iff (endMarker_last y) (by decide)).mpr h2
    · exfalso
      have hb := h.1
      rw [length_endMarker, hnl1] at hb
      omega
    · exfalso
      have hrw : (getStartMarker sid ++ blockMid d r c ++ getEndMarker sid) ++
          strOf "\n" = getStartMarker sid ++
            (blockMid d r c ++ (getEndMarker sid ++ strOf "\n")) := by
        simp [List.append_assoc]
      rw [hrw] at h
      exact not_endM_at_startM sid y _ h
    · right
      refine ⟨endM_at_endM hsid hy h, hieq⟩
  -- construction: an occurrence in the document survives at the same index
  have hCons : ∀ (q : Str) (qc : Char), q[q.length - 1]? = some qc → jsIsWs qc = false →
      ∀ j, occursAt q doc j → occursAt q
        ((jsTrimEnd doc ++ strOf "\n\n") ++
          (getStartMarker sid ++ blockMid d r c ++ getEndMarker sid) ++ strOf "\n") j := by
    intro q qc hql hqw j hj
    have h1 := (occursAt_trimEnd_iff hql hqw).mp hj
    have h2 := occursAt_append_left (strOf "\n\n") h1
    have hrw : (jsTrimEnd doc ++ strOf "\n\n") ++
        (getStartMarker sid ++ blockMid d r c ++ getEndMarker sid) ++ strOf "\n" =
        (jsTrimEnd doc ++ strOf "\n\n") ++
          ((getStartMarker sid ++ blockMid d r c ++ getEndMarker sid) ++ strOf "\n") := by
      rw [List.append_assoc]
    rw [hrw]
    exact occursAt_append_left _ h2
  constructor
  · -- well-formed markers for every identifier
    intro y hy
    by_cases hysid : y = sid
    · subst hysid
      exact Or.inr ⟨_, _, hUS, hUE, by rw [length_startMarker]; omega⟩
    · rcases ht.1 y hy with ⟨hnSy, hnEy⟩ | ⟨sy, ey, hSy, hEy, hlty⟩
      · left
        constructor
        · intro i hi
          rcases hA3 y hy i hi with h | ⟨he, _⟩
          · exact hnSy i h
          · exact hysid he
        · intro i hi
          rcases hA4 y hy i hi with h | ⟨he, _⟩
          · exact hnEy i h
          · exact hysid he
      · right
        refine ⟨sy, ey, ⟨?_, ?_⟩, ⟨?_, ?_⟩, hlty⟩
        · exact hCons _ _ (startMarker_last y) (by decide) sy hSy.1
        · intro j hj
          rcases hA3 y hy j hj with h | ⟨he, _⟩
          · exact hSy.2 j h
          · exact absurd he hysid
        · exact hCons _ _ (endMarker_last y) (by decide) ey hEy.1
        · intro j hj
          rcases hA4 y hy j hj with h | ⟨he, _⟩
          · exact hEy.2 j h
          · exact absurd he hysid
  · -- disjoint blocks
    intro u v su eu sv ev hu hv huv hUSu hUEu hUSv hUEv
    by_cases husid : u = sid
    · by_cases hvsid : v = sid
      · exact absurd (husid.trans hvsid.symm) huv
      · -- u is the freshly appended block, v sits inside the trimmed document
        right
        have hUSu' := hUSu
        rw [husid] at hUSu'
        have hsu := hUS.2 su hUSu'.1
        have hsv : occursAt (getStartMarker v) doc sv := by
          rcases hA3 v hv sv hUSv.1 with h | ⟨he, _⟩
          · exact h
          · exact absurd he hvsid
        have hev : occursAt (getEndMarker v) doc ev := by
          rcases hA4 v hv ev hUEv.1 with h | ⟨he, _⟩
          · exact h
          · exact absurd he hvsid
        have hevT := (occursAt_trimEnd_iff (endMarker_last v) (by decide)).mp hev
        have hbound := hevT.1
        have hlen2 : (jsTrimEnd doc ++ strOf "\n\n").length =
            (jsTrimEnd doc).length + 2 := by
          rw [List.length_append, hnn2]
        omega
    · by_cases hvsid : v = sid
      · left
        have hUSv' := hUSv
        rw [hvsid] at hUSv'
        have hsv := hUS.2 sv hUSv'.1
        have heu : occursAt (getEndMarker u) doc eu := by
          rcases hA4 u hu eu hUEu.1 with h | ⟨he, _⟩
          · exact h
          · exact absurd he husid
        have heuT := (occursAt_trimEnd_iff (endMarker_last u) (by decide)).mp heu
        have hbound := heuT.1
        have hlen2 : (jsTrimEnd doc ++ strOf "\n\n").length =
            (jsTrimEnd doc).length + 2 := by
          rw [List.length_append, hnn2]
        omega
      · -- both blocks persist from the document at their old positions
        have hsu : occursAt (getStartMarker u) doc su := by
          rcases hA3 u hu su hUSu.1 with h | ⟨he, _⟩
          · exact h
          · exact absurd he husid
        have heu : occursAt (getEndMarker u) doc eu := by
          rcases hA4 u hu eu hUEu.1 with h | ⟨he, _⟩
          · exact h
          · exact absurd he husid
        have hsv : occursAt (getStartMarker v) doc sv := by
          rcases hA3 v hv sv hUSv.1 with h | ⟨he, _⟩
          · exact h
          · exact absurd he hvsid
        have hev : occursAt (getEndMarker v) doc ev := by
          rcases hA4 v hv ev hUEv.1 with h | ⟨he, _⟩
          · exact h
          · exact absurd he hvsid
        rcases ht.1 u hu with ⟨hnSu, _⟩ | ⟨su', eu', hSu', hEu', _⟩
        · exact absurd hsu (hnSu su)
        rcases ht.1 v hv with ⟨hnSv, _⟩ | ⟨sv', ev', hSv', hEv', _⟩
        · exact absurd hsv (hnSv sv)
        have h1 := hSu'.2 su hsu
        have h2 := hEu'.2 eu heu
        have h3 := hSv'.2 sv hsv
        have h4 := hEv'.2 ev hev
        rw [← h1] at hSu'
        rw [← h2] at hEu'
        rw [← h3] at hSv'
        rw [← h4] at hEv'
        exact ht.2 u v su eu sv ev hu hv huv hSu' hEu' hSv' hEv'

end AgentMd

namespace AgentMd

/-! ### Tidy preservation: replace case -/

theorem replace_tidy {doc sid d r c : Str} {si ei : Nat} (ht : Tidy doc)
    (hsid : goodId sid) (hd : ltFree d) (hr : ltFree r) (hc : ltFree c)
    (hS : UniqueOccAt (getStartMarker sid) doc si)
    (hE : UniqueOccAt (getEndMarker sid) doc ei) (hlt : si < ei)
    (hlenE : ei + (getEndMarker sid).length ≤ doc.length) :
    Tidy (doc.take si ++
      (getStartMarker sid ++ blockMid d r c ++ getEndMarker sid) ++
      doc.drop (ei + (getEndMarker sid).length)) := by
  have hmid := blockMid_lt_free hd hr hc
  have hSlen := length_startMarker sid
  have hElen := length_endMarker sid
  have hsiLe : si ≤ doc.length := by
    have := hS.1.1
    omega
  have hPlen : (doc.take si).length = si := by
    rw [List.length_take, Nat.min_eq_left hsiLe]
  have hBlen : (getStartMarker sid ++ blockMid d r c ++ getEndMarker sid).length =
      (getStartMarker sid).length + (blockMid d r c).length +
        (getEndMarker sid).length := by
    simp only [List.length_append]
  have hdisjSE := SE_disjoint hsid hS.1 hE.1 hlt
  -- unique occurrences of sid's own markers in the result
  have hUS : UniqueOccAt (getStartMarker sid)
      (doc.take si ++ (getStartMarker sid ++ blockMid d r c ++ getEndMarker sid) ++
        doc.drop (ei + (getEndMarker sid).length)) si := by
    have hcc := res_unique_S hsid hmid
      (a := doc.take si) (z := doc.drop (ei + (getEndMarker sid).length))
      (fun j hj => by
        have hdoc := occursAt_of_take_rev hj
        have hj2 := hS.2 j hdoc
        have hb := hj.1
        rw [hPlen] at hb
        omega)
      (fun j hj => by
        have hdoc := occursAt_of_drop_rev hlenE hj
        have hj2 := hS.2 _ hdoc
        omega)
    rw [hPlen] at hcc
    exact hcc
  have hUE : UniqueOccAt (getEndMarker sid)
      (doc.take si ++ (getStartMarker sid ++ blockMid d r c ++ getEndMarker sid) ++
        doc.drop (ei + (getEndMarker sid).length))
      (si + (getStartMarker sid).length + (blockMid d r c).length) := by
    have hcc := res_unique_E hsid hmid
      (a := doc.take si) (z := doc.drop (ei + (getEndMarker sid).length))
      (fun j hj => by
        have hdoc := occursAt_of_take_rev hj
        have hj2 := hE.2 j hdoc
        have hb := hj.1
        rw [hPlen] at hb
        omega)
      (fun j hj => by
        have hdoc := occursAt_of_drop_rev hlenE hj
        have hj2 := hE.2 _ hdoc
        omega)
    rw [hPlen] at hcc
    exact hcc
  -- classification of marker occurrences in the result
  have hA3 : ∀ y, goodId y → ∀ i, occursAt (getStartMarker y)
      (doc.take si ++ (getStartMarker sid ++ blockMid d r c ++ getEndMarker sid) ++
        doc.drop (ei + (getEndMarker sid).length)) i →
      (i + (getStartMarker y).length ≤ si ∧ occursAt (getStartMarker y) doc i) ∨
      (∃ j, occursAt (getStartMarker y) doc j ∧ ei + (getEndMarker sid).length ≤ j ∧
        i + (ei + (getEndMarker sid).length) = si +
          (getStartMarker sid ++ blockMid d r c ++ getEndMarker sid).length + j) ∨
      (y = sid ∧ i = si) := by
    intro y hy i hi
    rcases occ_classify (startMarker_head y) (startMarker_drop1 hy) hsid.1 hmid hi with
      ⟨hb, h⟩ | ⟨hb, h⟩ | ⟨hieq, h⟩ | ⟨_, h⟩
    · left
      rw [hPlen] at hb
      exact ⟨hb, occursAt_of_take_rev h⟩
    · right; left
      have hdoc := occursAt_of_drop_rev hlenE h
      refine ⟨_, hdoc, by omega, by rw [hPlen] at hb; omega⟩
    · right; right
      refine ⟨?_, by rw [hPlen] at hieq; exact hieq⟩
      have hrw : (getStartMarker sid ++ blockMid d r c ++ getEndMarker sid) ++
          doc.drop (ei + (getEndMarker sid).length) = getStartMarker sid ++
            (blockMid d r c ++ (getEndMarker sid ++
              doc.drop (ei + (getEndMarker sid).length))) := by
        simp [List.append_assoc]
      rw [hrw] at h
      exact startM_at_startM hsid hy h
    · exact absurd h (not_startM_at_endM sid y _)
  have hA4 : ∀ y, goodId y → ∀ i, occursAt (getEndMarker y)
      (doc.take si ++ (getStartMarker sid ++ blockMid d r c ++ getEndMarker sid) ++
        doc.drop (ei + (getEndMarker sid).length)) i →
      (i + (getEndMarker y).length ≤ si ∧ occursAt (getEndMarker y) doc i) ∨
      (∃ j, occursAt (getEndMarker y) doc j ∧ ei + (getEndMarker sid).length ≤ j ∧
        i + (ei + (getEndMarker sid).length) = si +
          (getStartMarker sid ++ blockMid d r c ++ getEndMarker sid).length + j) ∨
      (y = sid ∧ i = si + (getStartMarker sid).length + (blockMid d r c).length) := by
    intro y hy i hi
    rcases occ_classify (endMarker_head y) (endMarker_drop1 hy) hsid.1 hmid hi with
      ⟨hb, h⟩ | ⟨hb, h⟩ | ⟨_, h⟩ | ⟨hieq, h⟩
    · left
      rw [hPlen] at hb
      exact ⟨hb, occursAt_of_take_rev h⟩
    · right; left
      have hdoc := occursAt_of_drop_rev hlenE h
      refine ⟨_, hdoc, by omega, by rw [hPlen] at hb; omega⟩
    · exfalso
      have hrw : (getStartMarker sid ++ blockMid d r c ++ getEndMarker sid) ++
          doc.drop (ei + (getEndMarker sid).length) = getStartMarker sid ++
            (blockMid d r c ++ (getEndMarker sid ++
              doc.drop (ei + (getEndMarker sid).length))) := by
        simp [List.append_assoc]
      rw [hrw] at h
      exact not_endM_at_startM sid y _ h
    · right; right
      exact ⟨endM_at_endM hsid hy h, by rw [hPlen] at hieq; exact hieq⟩
  -- construction: occurrences left or right of the replaced range survive
  have hConsL : ∀ (q : Str) (j : Nat), occursAt q doc j → j + q.length ≤ si →
      occursAt q (doc.take si ++
        (getStartMarker sid ++ blockMid d r c ++ getEndMarker sid) ++
        doc.drop (ei + (getEndMarker sid).length)) j := by
    intro q j hj hb
    have h1 := occursAt_take hj hb
    have hrw : doc.take si ++
        (getStartMarker sid ++ blockMid d r c ++ getEndMarker sid) ++
        doc.drop (ei + (getEndMarker sid).length) = doc.take si ++
          ((getStartMarker sid ++ blockMid d r c ++ getEndMarker sid) ++
            doc.drop (ei + (getEndMarker sid).length)) := by
      rw [List.append_assoc]
    rw [hrw]
    exact occursAt_append_left _ h1
  have hConsR : ∀ (q : Str) (j : Nat), occursAt q doc j →
      ei + (getEndMarker sid).length ≤ j →
      occursAt q (doc.take si ++
        (getStartMarker sid ++ blockMid d r c ++ getEndMarker sid) ++
        doc.drop (ei + (getEndMarker sid).length))
        (si + (getStartMarker sid ++ blockMid d r c ++ getEndMarker sid).length +
          (j - (ei + (getEndMarker sid).length))) := by
    intro q j hj hb
    have h1 := occursAt_drop hj hb
    have h2 := occursAt_append_right
      (doc.take si ++ (getStartMarker sid ++ blockMid d r c ++ getEndMarker sid)) h1
    have hlen3 : (doc.take si ++
        (getStartMarker sid ++ blockMid d r c ++ getEndMarker sid)).length =
        si + (getStartMarker sid ++ blockMid d r c ++ getEndMarker sid).length := by
      rw [List.length_append, hPlen]
    rw [hlen3] at h2
    have hrw : (doc.take si ++
        (getStartMarker sid ++ blockMid d r c ++ getEndMarker sid)) ++
        doc.drop (ei + (getEndMarker sid).length) = doc.take si ++
          (getStartMarker sid ++ blockMid d r c ++ getEndMarker sid) ++
          doc.drop (ei + (getEndMarker sid).length) := rfl
    rw [hrw] at h2
    have hidx : si + (getStartMarker sid ++ blockMid d r c ++ getEndMarker sid).length +
        (j - (ei + (getEndMarker sid).length)) =
        si + (getStartMarker sid ++ blockMid d r c ++ getEndMarker sid).length +
          (j - (ei + (getEndMarker sid).length)) := rfl
    exact h2
  -- positions of a distinct identifier's block in the result
  have hOther : ∀ y, goodId y → y ≠ sid → ∀ sy ey,
      UniqueOccAt (getStartMarker y) doc sy → UniqueOccAt (getEndMarker y) doc ey →
      sy < ey →
      (ey + (getEndMarker y).length ≤ si ∧
        UniqueOccAt (getStartMarker y)
          (doc.take si ++ (getStartMarker sid ++ blockMid d r c ++ getEndMarker sid) ++
            doc.drop (ei + (getEndMarker sid).length)) sy ∧
        UniqueOccAt (getEndMarker y)
          (doc.take si ++ (getStartMarker sid ++ blockMid d r c ++ getEndMarker sid) ++
            doc.drop (ei + (getEndMarker sid).length)) ey) ∨
      (ei + (getEndMarker sid).length ≤ sy ∧
        UniqueOccAt (getStartMarker y)
          (doc.take si ++ (getStartMarker sid ++ blockMid d r c ++ getEndMarker sid) ++
            doc.drop (ei + (getEndMarker sid).length))
          (si + (getStartMarker sid ++ blockMid d r c ++ getEndMarker sid).length +
            (sy - (ei + (getEndMarker sid).length))) ∧
        UniqueOccAt (getEndMarker y)
          (doc.take si ++ (getStartMarker sid ++ blockMid d r c ++ getEndMarker sid) ++
            doc.drop (ei + (getEndMarker sid).length))
          (si + (getStartMarker sid ++ blockMid d r c ++ getEndMarker sid).length +
            (ey - (ei + (getEndMarker sid).length)))) := by
    intro y hy hysid sy ey hSy hEy hlty
    have hylenS := length_startMarker y
    have hylenE := length_endMarker y
    have hySE := SE_disjoint hy hSy.1 hEy.1 hlty
    rcases ht.2 sid y si ei sy ey hsid hy (fun he => hysid he.symm) hS hE hSy hEy with
      hside | hside
    · -- y's block lies beyond the replaced range
      right
      refine ⟨hside, ⟨?_, ?_⟩, ⟨?_, ?_⟩⟩
      · exact hConsR _ sy hSy.1 hside
      · intro j hj
        rcases hA3 y hy j hj with ⟨hb, h⟩ | ⟨j', h, hb, heq⟩ | ⟨he, _⟩
        · have := hSy.2 j h
          omega
        · have := hSy.2 j' h
          omega
        · exact absurd he hysid
      · exact hConsR _ ey hEy.1 (by omega)
      · intro j hj
        rcases hA4 y hy j hj with ⟨hb, h⟩ | ⟨j', h, hb, heq⟩ | ⟨he, _⟩
        · have := hEy.2 j h
          omega
        · have := hEy.2 j' h
          omega
        · exact absurd he hysid
    · -- y's block lies before the replaced range
      left
      refine ⟨hside, ⟨?_, ?_⟩, ⟨?_, ?_⟩⟩
      · exact hConsL _ sy hSy.1 (by omega)
      · intro j hj
        rcases hA3 y hy j hj with ⟨hb, h⟩ | ⟨j', h, hb, heq⟩ | ⟨he, _⟩
        · exact hSy.2 j h
        · have := hSy.2 j' h
          omega
        · exact absurd he hysid
      · exact hConsL _ ey hEy.1 (by omega)
      · intro j hj
        rcases hA4 y hy j hj with ⟨hb, h⟩ | ⟨j', h, hb, heq⟩ | ⟨he, _⟩
        · exact hEy.2 j h
        · have := hEy.2 j' h
          omega
        · exact absurd he hysid
  constructor
  · -- well-formed markers for every identifier
    intro y hy
    by_cases hysid : y = sid
    · subst hysid
      exact Or.inr ⟨si, si + (getStartMarker y).length + (blockMid d r c).length,
        hUS, hUE, by omega⟩
    · rcases ht.1 y hy with ⟨hnSy, hnEy⟩ | ⟨sy, ey, hSy, hEy, hlty⟩
      · left
        constructor
        · intro i hi
          rcases hA3 y hy i hi with ⟨_, h⟩ | ⟨j', h, _, _⟩ | ⟨he, _⟩
          · exact hnSy i h
          · exact hnSy j' h
          · exact hysid he
        · intro i hi
          rcases hA4 y hy i hi with ⟨_, h⟩ | ⟨j', h, _, _⟩ | ⟨he, _⟩
          · exact hnEy i h
          · exact hnEy j' h
          · exact hysid he
      · right
        rcases hOther y hy hysid sy ey hSy hEy hlty with
          ⟨hb, hUSy, hUEy⟩ | ⟨hb, hUSy, hUEy⟩
        · exact ⟨sy, ey, hUSy, hUEy, hlty⟩
        · refine ⟨_, _, hUSy, hUEy, ?_⟩
          omega
  · -- disjoint blocks
    intro u v su eu sv ev hu hv huv hUSu hUEu hUSv hUEv
    have hpin : ∀ w sw ew, goodId w → w ≠ sid →
        UniqueOccAt (getStartMarker w)
          (doc.take si ++ (getStartMarker sid ++ blockMid d r c ++ getEndMarker sid) ++
            doc.drop (ei + (getEndMarker sid).length)) sw →
        UniqueOccAt (getEndMarker w)
          (doc.take si ++ (getStartMarker sid ++ blockMid d r c ++ getEndMarker sid) ++
            doc.drop (ei + (getEndMarker sid).length)) ew →
        ∃ sw' ew', UniqueOccAt (getStartMarker w) doc sw' ∧
          UniqueOccAt (getEndMarker w) doc ew' ∧ sw' < ew' ∧
          ((ew' + (getEndMarker w).length ≤ si ∧ sw = sw' ∧ ew = ew') ∨
           (ei + (getEndMarker sid).length ≤ sw' ∧
             sw = si + (getStartMarker sid ++ blockMid d r c ++
               getEndMarker sid).length + (sw' - (ei + (getEndMarker sid).length)) ∧
             ew = si + (getStartMarker sid ++ blockMid d r c ++
               getEndMarker sid).length + (ew' - (ei + (getEndMarker sid).length)))) := by
      intro w sw ew hw hwsid hUSw hUEw
      have hdocS : ∃ j, occursAt (getStartMarker w) doc j := by
        rcases hA3 w hw sw hUSw.1 with ⟨_, h⟩ | ⟨j', h, _, _⟩ | ⟨he, _⟩
        · exact ⟨sw, h⟩
        · exact ⟨j', h⟩
        · exact absurd he hwsid
      rcases ht.1 w hw with ⟨hnSw, _⟩ | ⟨sw', ew', hSw', hEw', hltw⟩
      · obtain ⟨j, hj⟩ := hdocS
        exact absurd hj (hnSw j)
      refine ⟨sw', ew', hSw', hEw', hltw, ?_⟩
      rcases hOther w hw hwsid sw' ew' hSw' hEw' hltw with
        ⟨hb, hUSw2, hUEw2⟩ | ⟨hb, hUSw2, hUEw2⟩
      · left
        exact ⟨hb, (hUSw.2 _ hUSw2.1).symm, (hUEw.2 _ hUEw2.1).symm⟩
      · right
        exact ⟨hb, (hUSw.2 _ hUSw2.1).symm, (hUEw.2 _ hUEw2.1).symm⟩
    by_cases husid : u = sid
    · by_cases hvsid : v = sid
      · exact absurd (husid.trans hvsid.symm) huv
      · have hUSu' := hUSu
        have hUEu' := hUEu
        rw [husid] at hUSu' hUEu'
        have hsu := hUS.2 su hUSu'.1
        have heu := hUE.2 eu hUEu'.1
        obtain ⟨sv', ev', hSv', hEv', hltv, hcases⟩ := hpin v sv ev hv hvsid hUSv hUEv
        have hvlenE := length_endMarker v
        rcases hcases with ⟨hb, hsv, hev⟩ | ⟨hb, hsv, hev⟩
        · right
          omega
        · left
          rw [husid]
          have hevd := hEv'.1.1
          omega
    · by_cases hvsid : v = sid
      · have hUSv' := hUSv
        have hUEv' := hUEv
        rw [hvsid] at hUSv' hUEv'
        have hsv := hUS.2 sv hUSv'.1
        have hev := hUE.2 ev hUEv'.1
        obtain ⟨su', eu', hSu', hEu', hltu, hcases⟩ := hpin u su eu hu husid hUSu hUEu
        have hulenE := length_endMarker u
        rcases hcases with ⟨hb, hsu, heu⟩ | ⟨hb, hsu, heu⟩
        · left
          omega
        · right
          rw [hvsid]
          have heud := hEu'.1.1
          omega
      · obtain ⟨su', eu', hSu', hEu', hltu, hcasesu⟩ := hpin u su eu hu husid hUSu hUEu
        obtain ⟨sv', ev', hSv', hEv', hltv, hcasesv⟩ := hpin v sv ev hv hvsid hUSv hUEv
        have hdd := ht.2 u v su' eu' sv' ev' hu hv huv hSu' hEu' hSv' hEv'
        rcases hcasesu with ⟨hbu, hsu, heu⟩ | ⟨hbu, hsu, heu⟩ <;>
          rcases hcasesv with ⟨hbv, hsv, hev⟩ | ⟨hbv, hsv, hev⟩
        · rcases hdd with h | h
          · left; omega
          · right; omega
        · left
          omega
        · right
          omega
        · have heud := hEu'.1.1
          have hevd := hEv'.1.1
          rcases hdd with h | h
          · left; omega
          · right; omega

end AgentMd

namespace AgentMd

/-! ### Tidy preservation across upserts -/

theorem upsert_preserves_tidy {doc sid d r c res : Str} (ht : Tidy doc)
    (hsid : goodId sid) (hd : ltFree d) (hr : ltFree r) (hc : ltFree c)
    (hok : upsert doc sid d r c = .ok res) : Tidy res := by
  rcases upsert_ok_cases hsid (ht.1 sid hsid) hok with
    ⟨hnS, hnE, hres⟩ | ⟨si, ei, hS, hE, hlt, _, hlenE, hres⟩
  · rw [hres]
    have h := append_tidy ht hsid hd hr hc hnS hnE
    have hrw : (jsTrimEnd doc ++ strOf "\n\n") ++
        (getStartMarker sid ++ blockMid d r c ++ getEndMarker sid) ++ strOf "\n" =
        jsTrimEnd doc ++ strOf "\n\n" ++ generateIndexBlock sid d r c ++ strOf "\n" := by
      unfold generateIndexBlock
      simp [List.append_assoc]
    rw [hrw] at h
    exact h
  · rw [hres]
    exact replace_tidy ht hsid hd hr hc hS hE hlt hlenE

theorem applyUpserts_tidy (ops : List UpOp) :
    ∀ (doc res : Str), Tidy doc → (∀ op ∈ ops, goodOp op) →
      applyUpserts ops doc = .ok res → Tidy res := by
  induction ops with
  | nil =>
    intro doc res ht _ happ
    unfold applyUpserts at happ
    rw [← Except.ok.inj happ]
    exact ht
  | cons op rest ih =>
    intro doc res ht hops happ
    unfold applyUpserts at happ
    match hu : upsert doc op.sid op.displayName op.rootPath op.compressedIndex with
    | .error e =>
      rw [hu] at happ
      cases happ
    | .ok doc' =>
      rw [hu] at happ
      have hop := hops op (List.mem_cons_self op rest)
      have ht' := upsert_preserves_tidy ht hop.1 hop.2.1 hop.2.2.1 hop.2.2.2 hu
      exact ih doc' res ht' (fun o ho => hops o (List.mem_cons_of_mem op ho)) happ

theorem tidy_of_no_markers {doc : Str} (hS : NoOcc startMarkerPre doc)
    (hE : NoOcc endMarkerPre doc) : Tidy doc := by
  constructor
  · intro y _
    left
    exact ⟨fun i hi => hS i (occursAt_pre_of_startM hi),
      fun i hi => hE i (occursAt_pre_of_endM hi)⟩
  · intro u v su eu sv ev _ _ _ hUSu _ _ _
    exact absurd (occursAt_pre_of_startM hUSu.1) (hS su)

/-- C2 (amended): starting from a tidy document — every marker-safe
identifier has either no markers or exactly one start/end pair with start
before end, and distinct identifiers' blocks are disjoint — any sequence of
successful Upserts with marker-safe identifiers and `<`-free block content
leaves the document tidy, and in particular leaves at most one active block
(start marker with a matching end marker) per identifier. -/
theorem upserts_preserve_block_uniqueness (ops : List UpOp) (doc res : Str)
    (ht : Tidy doc) (hops : ∀ op ∈ ops, goodOp op)
    (happ : applyUpserts ops doc = .ok res) :
    Tidy res ∧ ∀ sid, goodId sid → activeBlockCount res sid ≤ 1 := by
  have htres := applyUpserts_tidy ops doc res ht hops happ
  exact ⟨htres, fun sid hs => activeBlockCount_le_one_of_WFid (htres.1 sid hs)⟩

/-- Witness for the amended C2 theorem at a concrete input: one Upsert of
`x` onto a marker-free document. -/
theorem upserts_preserve_block_uniqueness_witness :
    Tidy c2wres ∧ ∀ sid, goodId sid → activeBlockCount c2wres sid ≤ 1 :=
  upserts_preserve_block_uniqueness [c2op] c2wdoc c2wres
    (tidy_of_no_markers (findSubstr_none (by decide)) (findSubstr_none (by decide)))
    (by decide)
    (by rfl)

end AgentMd

namespace AgentMd

set_option maxRecDepth 40000 in
/-- C2 counterexample: the orphan-end-marker document has at most one active
block for every identifier, yet two successful Upserts of `x` leave two
active blocks for `x`: each appended block's start marker pairs with the
first end marker the code finds, and the orphan end marker keeps the
replace branch from ever firing. -/
theorem upsert_sequence_duplicates_block :
    (∀ sid, activeBlockCount c2doc0 sid ≤ 1) ∧
    applyUpserts [c2op, c2op] c2doc0 = .ok c2doc2 ∧
    activeBlockCount c2doc2 xid = 2 := by
  refine ⟨?_, by rfl, by decide⟩
  intro sid
  calc activeBlockCount c2doc0 sid ≤ (occIdx startMarkerPre c2doc0).length :=
        activeBlockCount_le_preCount c2doc0 sid
    _ ≤ 1 := by decide

end AgentMd

namespace AgentMd

/-! ### Blank-line collapsing lemmas for Remove -/

theorem dropWhile_head_false {α : Type} {p : α → Bool} {l : List α} {c : α} {t : List α}
    (h : l.dropWhile p = c :: t) : p c = false := by
  induction l with
  | nil => simp at h
  | cons a l' ih =>
    rw [List.dropWhile_cons] at h
    by_cases hp : p a = true
    · rw [if_pos hp] at h
      exact ih h
    · rw [if_neg hp] at h
      injection h with h1 _
      rw [← h1]
      cases hba : p a with
      | false => rfl
      | true => exact absurd hba hp

theorem dropWhile_idem {p : Char → Bool} (l : List Char) :
    (l.dropWhile p).dropWhile p = l.dropWhile p := by
  match hR : l.dropWhile p with
  | [] => rfl
  | c :: t =>
    have hc := dropWhile_head_false hR
    rw [List.dropWhile_cons, if_neg (by rw [hc]; exact Bool.false_ne_true)]

theorem trimEnd_nn_reverse (s : Str) :
    (jsTrimEnd s ++ strOf "\n\n").reverse = '\n' :: '\n' :: s.reverse.dropWhile jsIsWs := by
  rw [List.reverse_append]
  unfold jsTrimEnd
  rw [List.reverse_reverse]
  rfl

theorem takeWhile_nl_trimEnd (s : Str) :
    (jsTrimEnd s ++ strOf "\n\n").reverse.takeWhile (· == '\n') = ['\n', '\n'] := by
  rw [trimEnd_nn_reverse]
  rw [List.takeWhile_cons, if_pos (by decide), List.takeWhile_cons, if_pos (by decide)]
  match hR : s.reverse.dropWhile jsIsWs with
  | [] => rfl
  | c :: t =>
    have hc := dropWhile_head_false hR
    have hcn : (c == '\n') = false := by
      cases hcc : c == '\n' with
      | false => rfl
      | true =>
        exfalso
        have hce : c = '\n' := eq_of_beq hcc
        rw [hce] at hc
        exact absurd hc (by decide)
    rw [List.takeWhile_cons, if_neg (by rw [hcn]; exact Bool.false_ne_true)]

theorem collapseTrailing_trimEnd_nn (s : Str) :
    collapseTrailingNewlines (jsTrimEnd s ++ strOf "\n\n") = jsTrimEnd s ++ strOf "\n" := by
  unfold collapseTrailingNewlines
  rw [takeWhile_nl_trimEnd]
  have hk : (['\n', '\n'] : Str).length = 2 := by decide
  rw [hk]
  rw [if_neg (by omega)]
  have hlen : (jsTrimEnd s ++ strOf "\n\n").length = (jsTrimEnd s).length + 2 := by
    rw [List.length_append]
    rfl
  rw [hlen]
  have h2 : (jsTrimEnd s).length + 2 - 2 = (jsTrimEnd s).length := by omega
  rw [h2, List.take_append_of_le_length (Nat.le_refl _), List.take_length]

theorem trimEnd_trimEnd_nn (s : Str) :
    jsTrimEnd (jsTrimEnd s ++ strOf "\n\n") = jsTrimEnd s := by
  show ((jsTrimEnd s ++ strOf "\n\n").reverse.dropWhile jsIsWs).reverse = jsTrimEnd s
  rw [trimEnd_nn_reverse]
  rw [List.dropWhile_cons, if_pos (by decide), List.dropWhile_cons, if_pos (by decide)]
  rw [dropWhile_idem]
  rfl

end AgentMd

namespace AgentMd

/-- C6 (amended): Upsert is idempotent on every document whose markers for
the identifier are well formed (no markers at all, or exactly one ordered
start/end pair); and on a document with no markers for the identifier,
Upsert followed by Remove of the same identifier succeeds and returns the
document to its pre-Upsert content up to trailing blank-line normalization
(the result is the trimmed document plus one blank line). -/
theorem upsert_idempotent_and_roundtrip :
    (∀ doc sid d r c res : Str, goodId sid → ltFree d → ltFree r → ltFree c →
      WFid doc sid → upsert doc sid d r c = .ok res →
      upsert res sid d r c = .ok res) ∧
    (∀ doc sid d r c res : Str, goodId sid → ltFree d → ltFree r → ltFree c →
      NoOcc (getStartMarker sid) doc → NoOcc (getEndMarker sid) doc →
      upsert doc sid d r c = .ok res →
      removeSourceContent res sid = some (jsTrimEnd doc ++ strOf "\n\n") ∧
      jsTrimEnd (jsTrimEnd doc ++ strOf "\n\n") = jsTrimEnd doc) := by
  constructor
  · intro doc sid d r c res hsid hd hr hc hwf hok
    exact upsert_twice hsid hd hr hc hwf hok
  · intro doc sid d r c res hsid hd hr hc hnS hnE hok
    have hmid := blockMid_lt_free hd hr hc
    have hnl1 : (strOf "\n").length = 1 := by decide
    have hres0 := upsert_eq_append (d := d) (r := r) (c := c) hnS
    rw [hres0] at hok
    have hres := (Except.ok.inj hok).symm
    have hresB : res = (jsTrimEnd doc ++ strOf "\n\n") ++
        (getStartMarker sid ++ blockMid d r c ++ getEndMarker sid) ++ strOf "\n" := by
      rw [hres]
      unfold generateIndexBlock
      simp [List.append_assoc]
    have hUS : UniqueOccAt (getStartMarker sid) res
        (jsTrimEnd doc ++ strOf "\n\n").length := by
      rw [hresB]
      apply res_unique_S hsid hmid
      · intro j hj
        have h2 := occ_in_append_nn (nl_not_mem_startMarker hsid.2.2)
          (by rw [length_startMarker]; omega) hj
        exact hnS j ((occursAt_trimEnd_iff (startMarker_last sid) (by decide)).mpr h2)
      · intro j hj
        have hb := hj.1
        rw [length_startMarker, hnl1] at hb
        omega
    have hUE : UniqueOccAt (getEndMarker sid) res
        ((jsTrimEnd doc ++ strOf "\n\n").length + (getStartMarker sid).length +
          (blockMid d r c).length) := by
      rw [hresB]
      apply res_unique_E hsid hmid
      · intro j hj
        have h2 := occ_in_append_nn (nl_not_mem_endMarker hsid.2.2)
          (by rw [length_endMarker]; omega) hj
        exact hnE j ((occursAt_trimEnd_iff (endMarker_last sid) (by decide)).mpr h2)
      · intro j hj
        have hb := hj.1
        rw [length_endMarker, hnl1] at hb
        omega
    constructor
    · unfold removeSourceContent
      dsimp only
      rw [findSubstr_of_unique hUS, findSubstr_of_unique hUE]
      have htake : res.take ((jsTrimEnd doc ++ strOf "\n\n").length) =
          jsTrimEnd doc ++ strOf "\n\n" := by
        rw [hresB, List.append_assoc, List.take_left]
      have hdrop : res.drop ((jsTrimEnd doc ++ strOf "\n\n").length +
          (getStartMarker sid).length + (blockMid d r c).length +
          (getEndMarker sid).length) = strOf "\n" := by
        rw [hresB]
        have hidx : (jsTrimEnd doc ++ strOf "\n\n").length +
            (getStartMarker sid).length + (blockMid d r c).length +
            (getEndMarker sid).length =
            ((jsTrimEnd doc ++ strOf "\n\n") ++
              (getStartMarker sid ++ blockMid d r c ++ getEndMarker sid)).length := by
          simp only [List.length_append]
          omega
        rw [hidx, List.drop_left]
      dsimp only
      rw [htake, hdrop]
      congr 1
      rw [collapseTrailing_trimEnd_nn]
      have hcl : collapseLeadingNewlines (strOf "\n") = strOf "\n" := by decide
      rw [hcl]
      have hcat : strOf "\n" ++ strOf "\n" = strOf "\n\n" := by decide
      rw [List.append_assoc, hcat]
    · exact trimEnd_trimEnd_nn doc

/-- Witness for the amended C6 theorem: both conjuncts applied to the
marker-free document `c2wdoc`. -/
theorem upsert_idempotent_and_roundtrip_witness :
    upsert c2wres xid dName rPath cIdx = .ok c2wres ∧
    (removeSourceContent c2wres xid = some (jsTrimEnd c2wdoc ++ strOf "\n\n") ∧
      jsTrimEnd (jsTrimEnd c2wdoc ++ strOf "\n\n") = jsTrimEnd c2wdoc) := by
  have hok : upsert c2wdoc xid dName rPath cIdx = .ok c2wres := by rfl
  refine ⟨upsert_idempotent_and_roundtrip.1 c2wdoc xid dName rPath cIdx c2wres
      (by decide) (by decide) (by decide) (by decide)
      (Or.inl ⟨findSubstr_none (by decide), findSubstr_none (by decide)⟩) hok,
    upsert_idempotent_and_roundtrip.2 c2wdoc xid dName rPath cIdx c2wres
      (by decide) (by decide) (by decide) (by decide)
      (findSubstr_none (by decide)) (findSubstr_none (by decide)) hok⟩

set_option maxRecDepth 40000 in
/-- C6 counterexample: on a document whose end marker precedes its start
marker, Upsert appends on every call, so applying it twice with the same
body differs from applying it once; and when the document already holds a
block for the identifier, Upsert followed by Remove deletes the block
outright, so the original body text is lost rather than restored up to
blank-line normalization. -/
theorem upsert_not_idempotent_and_lossy_roundtrip :
    upsert c6doc xid dName rPath cIdx = .ok c6d1 ∧
    upsert c6d1 xid dName rPath cIdx = .ok c6d2 ∧
    c6d1 ≠ c6d2 ∧
    upsert c6blockdoc xid dName rPath cIdx = .ok c6d3 ∧
    removeSourceContent c6d3 xid = some c6d4 ∧
    (occIdx (strOf "SECRETBODY") c6blockdoc).length = 1 ∧
    (occIdx (strOf "SECRETBODY") c6d4).length = 0 ∧
    jsTrimEnd c6d4 ≠ jsTrimEnd c6blockdoc := by
  refine ⟨by rfl, by rfl, by decide, by rfl, by rfl, by decide, by decide, by decide⟩

end AgentMd

namespace AgentMd

/-! ### C5 and C10: upsert case semantics -/

theorem findSubstr_of_first {q s : Str} {i : Nat} (h : occursAt q s i)
    (hmin : ∀ j, j < i → ¬ occursAt q s j) : findSubstr q s = some i := by
  match hfi : findSubstr q s with
  | none => exact absurd h (findSubstr_none hfi i)
  | some j =>
    obtain ⟨hj, hjmin⟩ := findSubstr_some hfi
    rcases Nat.lt_trichotomy j i with hlt | heq | hgt
    · exact absurd hj (hmin j hlt)
    · rw [heq]
    · exact absurd h (hjmin i hgt)

theorem upsert_eq_replace_first {doc sid d r c : Str} {si ei : Nat}
    (hS : occursAt (getStartMarker sid) doc si)
    (hSmin : ∀ j, j < si → ¬ occursAt (getStartMarker sid) doc j)
    (hE : occursAt (getEndMarker sid) doc ei)
    (hEmin : ∀ j, j < ei → ¬ occursAt (getEndMarker sid) doc j)
    (hlt : si < ei) :
    upsert doc sid d r c = .ok (doc.take si ++ generateIndexBlock sid d r c ++
      doc.drop (ei + (getEndMarker sid).length)) := by
  unfold upsert updateContent
  dsimp only
  rw [findSubstr_of_first hS hSmin, findSubstr_of_first hE hEmin]
  simp only [if_pos hlt]

/-- C5: Upsert case semantics. (1) When both markers occur (taking the first
occurrence of each, as `indexOf` does) and the start precedes the end, the
document splits as `pre ++ mid ++ post` where `mid` runs from the start
marker through the end marker inclusive, and the result replaces exactly
`mid` with the freshly generated block, leaving `pre` and `post` unchanged.
(2) A start marker with no end marker fails with `MalformedBlock` (the
document, being a pure value, is untouched). (3) With neither marker the
new block is appended after the trimmed end of the document, separated by
exactly one blank line and followed by a final newline. -/
theorem updateContent_case_semantics (doc sid d r c : Str) (hsid : goodId sid) :
    (∀ si ei : Nat, occursAt (getStartMarker sid) doc si →
      (∀ j, j < si → ¬ occursAt (getStartMarker sid) doc j) →
      occursAt (getEndMarker sid) doc ei →
      (∀ j, j < ei → ¬ occursAt (getEndMarker sid) doc j) → si < ei →
      ∃ pre mid post : Str, doc = pre ++ mid ++ post ∧ pre.length = si ∧
        mid.length = ei + (getEndMarker sid).length - si ∧
        occursAt (getStartMarker sid) mid 0 ∧
        (∃ mid0, mid = mid0 ++ getEndMarker sid) ∧
        upsert doc sid d r c = .ok (pre ++ generateIndexBlock sid d r c ++ post)) ∧
    ((∃ i, occursAt (getStartMarker sid) doc i) → NoOcc (getEndMarker sid) doc →
      upsert doc sid d r c = .error .malformedBlock) ∧
    (NoOcc (getStartMarker sid) doc → NoOcc (getEndMarker sid) doc →
      upsert doc sid d r c =
        .ok (jsTrimEnd doc ++ strOf "\n\n" ++ generateIndexBlock sid d r c ++
          strOf "\n")) := by
  refine ⟨?_, ?_, ?_⟩
  · intro si ei hS hSmin hE hEmin hlt
    have hdisjSE := SE_disjoint hsid hS hE hlt
    have hEdoc : ei + (getEndMarker sid).length ≤ doc.length := hE.1
    have hsiLe : si ≤ doc.length := by
      have := hS.1
      omega
    refine ⟨doc.take si, (doc.take (ei + (getEndMarker sid).length)).drop si,
      doc.drop (ei + (getEndMarker sid).length), ?_, ?_, ?_, ?_, ?_, ?_⟩
    · have hX : doc.take (ei + (getEndMarker sid).length) =
          doc.take si ++ (doc.take (ei + (getEndMarker sid).length)).drop si := by
        conv_lhs =>
          rw [← List.take_append_drop si (doc.take (ei + (getEndMarker sid).length))]
        rw [List.take_take, Nat.min_eq_left (by omega)]
      calc doc = doc.take (ei + (getEndMarker sid).length) ++
            doc.drop (ei + (getEndMarker sid).length) := (List.take_append_drop _ _).symm
        _ = doc.take si ++ (doc.take (ei + (getEndMarker sid).length)).drop si ++
            doc.drop (ei + (getEndMarker sid).length) := by rw [← hX]
    · rw [List.length_take, Nat.min_eq_left hsiLe]
    · rw [List.length_drop, List.length_take, Nat.min_eq_left hEdoc]
    · have h1 := occursAt_take hS
        (by omega : si + (getStartMarker sid).length ≤ ei + (getEndMarker sid).length)
      have h2 := occursAt_drop h1 (Nat.le_refl si)
      have h0 : si - si = 0 := by omega
      rw [h0] at h2
      exact h2
    · refine ⟨(doc.take ei).drop si, ?_⟩
      have hTake : doc.take (ei + (getEndMarker sid).length) =
          doc.take ei ++ getEndMarker sid := by
        rw [List.take_add]
        congr 1
        exact hE.2
      have hle : si ≤ (doc.take ei).length := by
        rw [List.length_take, Nat.min_eq_left (by omega : ei ≤ doc.length)]
        omega
      rw [hTake, List.drop_append_of_le_length hle]
    · exact upsert_eq_replace_first hS hSmin hE hEmin hlt
  · rintro ⟨i, hi⟩ hnE
    exact upsert_eq_malformed hi hnE
  · intro hnS _
    exact upsert_eq_append hnS

/-- Witness for the C5 theorem: a start marker for `broken` with no end
marker makes Upsert fail with `MalformedBlock`. -/
theorem updateContent_case_semantics_witness :
    upsert c5doc (strOf "broken") dName rPath cIdx = .error .malformedBlock :=
  (updateContent_case_semantics c5doc (strOf "broken") dName rPath cIdx
    (by decide)).2.1 ⟨5, by decide⟩ (findSubstr_none (by decide))

theorem uniqueOccAt_of_occIdx {q s : Str} {i : Nat} (h : occIdx q s = [i]) :
    UniqueOccAt q s i := by
  constructor
  · have hm : i ∈ occIdx q s := by
      rw [h]
      exact List.mem_singleton_self i
    exact mem_occIdx.mp hm
  · intro j hj
    have hm : j ∈ occIdx q s := mem_occIdx.mpr hj
    rw [h] at hm
    exact List.eq_of_mem_singleton hm

/-- C10: on a document containing exactly one end marker for the identifier
and no start marker, Upsert succeeds and appends a fresh complete block after
the trimmed end of the document; the orphan end marker stays at its old
index, and the result contains exactly two end-marker occurrences for the
identifier (the orphan and the appended block's). -/
theorem upsert_orphan_end_appends (doc sid d r c : Str) (hsid : goodId sid)
    (hd : ltFree d) (hr : ltFree r) (hc : ltFree c) {e : Nat}
    (hnS : NoOcc (getStartMarker sid) doc)
    (hE : UniqueOccAt (getEndMarker sid) doc e) :
    upsert doc sid d r c =
      .ok (jsTrimEnd doc ++ strOf "\n\n" ++ generateIndexBlock sid d r c ++
        strOf "\n") ∧
    occursAt (getEndMarker sid)
      (jsTrimEnd doc ++ strOf "\n\n" ++ generateIndexBlock sid d r c ++ strOf "\n")
      e ∧
    ∃ j, j ≠ e ∧
      occursAt (getEndMarker sid)
        (jsTrimEnd doc ++ strOf "\n\n" ++ generateIndexBlock sid d r c ++ strOf "\n")
        j ∧
      ∀ i, occursAt (getEndMarker sid)
        (jsTrimEnd doc ++ strOf "\n\n" ++ generateIndexBlock sid d r c ++ strOf "\n")
        i → i = e ∨ i = j := by
  have hmid := blockMid_lt_free hd hr hc
  have hnl1 : (strOf "\n").length = 1 := by decide
  have hresB : jsTrimEnd doc ++ strOf "\n\n" ++ generateIndexBlock sid d r c ++
      strOf "\n" = (jsTrimEnd doc ++ strOf "\n\n") ++
        (getStartMarker sid ++ blockMid d r c ++ getEndMarker sid) ++ strOf "\n" := by
    unfold generateIndexBlock
    simp [List.append_assoc]
  have hT := (occursAt_trimEnd_iff (endMarker_last sid) (by decide)).mp hE.1
  refine ⟨upsert_eq_append hnS, ?_, ?_⟩
  · have h2 := occursAt_append_left (strOf "\n\n") hT
    rw [hresB, List.append_assoc]
    exact occursAt_append_left _ h2
  · refine ⟨(jsTrimEnd doc ++ strOf "\n\n").length + (getStartMarker sid).length +
      (blockMid d r c).length, ?_, ?_, ?_⟩
    · have hb := hT.1
      have hlen2 : (jsTrimEnd doc ++ strOf "\n\n").length =
          (jsTrimEnd doc).length + 2 := by
        rw [List.length_append]
        rfl
      rw [length_endMarker] at hb
      have hSl := length_startMarker sid
      omega
    · rw [hresB]
      have heq : (jsTrimEnd doc ++ strOf "\n\n") ++
          (getStartMarker sid ++ blockMid d r c ++ getEndMarker sid) ++ strOf "\n" =
          ((jsTrimEnd doc ++ strOf "\n\n") ++ getStartMarker sid ++ blockMid d r c) ++
            getEndMarker sid ++ strOf "\n" := by
        simp [List.append_assoc]
      have h0 := occursAt_of_append heq
      have hlen3 : ((jsTrimEnd doc ++ strOf "\n\n") ++ getStartMarker sid ++
          blockMid d r c).length = (jsTrimEnd doc ++ strOf "\n\n").length +
            (getStartMarker sid).length + (blockMid d r c).length := by
        simp only [List.length_append]
      rw [hlen3] at h0
      exact h0
    · intro i hi
      rw [hresB] at hi
      rcases occ_classify (endMarker_head sid) (endMarker_drop1 hsid) hsid.1 hmid hi with
        ⟨_, h⟩ | ⟨_, h⟩ | ⟨_, h⟩ | ⟨hieq, _⟩
      · left
        have h2 := occ_in_append_nn (nl_not_mem_endMarker hsid.2.2)
          (by rw [length_endMarker]; omega) h
        exact hE.2 i ((occursAt_trimEnd_iff (endMarker_last sid) (by decide)).mpr h2)
      · exfalso
        have hb := h.1
        rw [length_endMarker, hnl1] at hb
        omega
      · exfalso
        have hrw : (getStartMarker sid ++ blockMid d r c ++ getEndMarker sid) ++
            strOf "\n" = getStartMarker sid ++
              (blockMid d r c ++ (getEndMarker sid ++ strOf "\n")) := by
          simp [List.append_assoc]
        rw [hrw] at h
        exact not_endM_at_startM sid sid _ h
      · right
        exact hieq

/-- Witness for the C10 theorem: a document with one orphan end marker for
`x` at index 6. -/
theorem upsert_orphan_end_appends_witness :
    upsert c10doc xid dName rPath cIdx =
      .ok (jsTrimEnd c10doc ++ strOf "\n\n" ++ generateIndexBlock xid dName rPath cIdx ++
        strOf "\n") ∧
    occursAt (getEndMarker xid)
      (jsTrimEnd c10doc ++ strOf "\n\n" ++ generateIndexBlock xid dName rPath cIdx ++
        strOf "\n") 6 ∧
    ∃ j, j ≠ 6 ∧
      occursAt (getEndMarker xid)
        (jsTrimEnd c10doc ++ strOf "\n\n" ++ generateIndexBlock xid dName rPath cIdx ++
          strOf "\n") j ∧
      ∀ i, occursAt (getEndMarker xid)
        (jsTrimEnd c10doc ++ strOf "\n\n" ++ generateIndexBlock xid dName rPath cIdx ++
          strOf "\n") i → i = 6 ∨ i = j :=
  upsert_orphan_end_appends c10doc xid dName rPath cIdx (by decide) (by decide)
    (by decide) (by decide) (e := 6) (findSubstr_none (by decide))
    (uniqueOccAt_of_occIdx (by decide))

end AgentMd

namespace AgentMd

/-! ### Batch download loop characterization (C1, C9) -/

theorem eventsFor_cons (total n : Nat) (x : Str) (xs : List Str) :
    eventsFor total n (x :: xs) = (n + 1, total, x) :: eventsFor total (n + 1) xs := by
  unfold eventsFor
  rw [List.enumFrom_cons, List.map_cons]

theorem downloadLoop_char (ok : Str → Bool) (dp eff : Str) :
    ∀ (files : List Str),
      (∀ f ∈ files, ∃ p, sanitizePath dp (relPathOf eff f) = .ok p) →
      ∀ (n : Nat) (fl : List Str) (ev : List Progress) (total : Nat),
        downloadLoop ok dp eff files n fl ev total =
          .ok (n + (files.filter ok).length,
            fl ++ (files.filter (fun f => !ok f)).map (relPathOf eff),
            ev ++ eventsFor total n ((files.filter ok).map (relPathOf eff))) := by
  intro files
  induction files with
  | nil =>
    intro _ n fl ev total
    simp [downloadLoop, eventsFor]
  | cons f rest ih =>
    intro hsan n fl ev total
    obtain ⟨p, hp⟩ := hsan f (List.mem_cons_self f rest)
    unfold downloadLoop
    dsimp only
    rw [hp]
    dsimp only
    by_cases hok : ok f = true
    · rw [if_pos hok]
      rw [ih (fun g hg => hsan g (List.mem_cons_of_mem f hg)) (n + 1) fl
        (ev ++ [(n + 1, total, relPathOf eff f)]) total]
      have hfilter : (f :: rest).filter ok = f :: rest.filter ok := by
        rw [List.filter_cons, if_pos hok]
      have hfilter2 : (f :: rest).filter (fun g => !ok g) =
          rest.filter (fun g => !ok g) := by
        rw [List.filter_cons]
        simp [hok]
      rw [hfilter, hfilter2, List.map_cons, eventsFor_cons, List.length_cons]
      have harith : n + 1 + (rest.filter ok).length =
          n + ((rest.filter ok).length + 1) := by omega
      rw [harith, List.append_assoc, List.singleton_append]
    · have hok' : ok f = false := by
        cases hf : ok f
        · rfl
        · exact absurd hf hok
      rw [if_neg hok]
      rw [ih (fun g hg => hsan g (List.mem_cons_of_mem f hg)) n
        (fl ++ [relPathOf eff f]) ev total]
      have hfilter : (f :: rest).filter ok = rest.filter ok := by
        rw [List.filter_cons]
        simp [hok']
      have hfilter2 : (f :: rest).filter (fun g => !ok g) =
          f :: rest.filter (fun g => !ok g) := by
        rw [List.filter_cons]
        simp [hok']
      rw [hfilter, hfilter2, List.map_cons, List.append_assoc, List.singleton_append]

theorem filter_length_split (ok : Str → Bool) (files : List Str) :
    (files.filter ok).length + (files.filter (fun f => !ok f)).length = files.length := by
  induction files with
  | nil => simp
  | cons f rest ih =>
    by_cases hok : ok f = true
    · have h1 : (f :: rest).filter ok = f :: rest.filter ok := by
        rw [List.filter_cons, if_pos hok]
      have h2 : (f :: rest).filter (fun g => !ok g) =
          rest.filter (fun g => !ok g) := by
        rw [List.filter_cons]
        simp [hok]
      rw [h1, h2]
      simp only [List.length_cons]
      omega
    · have hok' : ok f = false := by
        cases hf : ok f
        · rfl
        · exact absurd hf hok
      have h1 : (f :: rest).filter ok = rest.filter ok := by
        rw [List.filter_cons]
        simp [hok']
      have h2 : (f :: rest).filter (fun g => !ok g) =
          f :: rest.filter (fun g => !ok g) := by
        rw [List.filter_cons]
        simp [hok']
      rw [h1, h2]
      simp only [List.length_cons]
      omega

/-- C1 (amended): in the batch loop every per-file failure is recorded (as
its relative path, in order) in the internal failed list and the loop
continues; succeeded and failed counts partition the selected files; after
the batch the operation fails with `DownloadFailed` exactly when zero files
succeeded, and otherwise returns an outcome reporting the total selected
count and the succeeded count. The failed list itself is only warned about,
not part of the returned outcome. -/
theorem downloadBatch_semantics (ok : Str → Bool) (dp eff : Str) (files : List Str)
    (hsan : ∀ f ∈ files, ∃ p, sanitizePath dp (relPathOf eff f) = .ok p) :
    downloadLoop ok dp eff files 0 [] [] files.length =
      .ok ((files.filter ok).length,
        (files.filter (fun f => !ok f)).map (relPathOf eff),
        eventsFor files.length 0 ((files.filter ok).map (relPathOf eff))) ∧
    batchFailedList ok dp eff files =
      (files.filter (fun f => !ok f)).map (relPathOf eff) ∧
    (files.filter ok).length + (files.filter (fun f => !ok f)).length = files.length ∧
    (downloadBatch ok dp eff files = .error .downloadFailed ↔
      (files.filter ok).length = 0) ∧
    (0 < (files.filter ok).length →
      downloadBatch ok dp eff files = .ok ⟨files.length, (files.filter ok).length⟩) := by
  have hl := downloadLoop_char ok dp eff files hsan 0 [] [] files.length
  simp only [Nat.zero_add, List.nil_append] at hl
  refine ⟨hl, ?_, filter_length_split ok files, ?_, ?_⟩
  · unfold batchFailedList
    rw [hl]
  · unfold downloadBatch
    rw [hl]
    dsimp only
    by_cases hz : (files.filter ok).length = 0
    · rw [if_pos hz]
      simp [hz]
    · rw [if_neg hz]
      simp [hz]
  · intro hpos
    unfold downloadBatch
    rw [hl]
    dsimp only
    rw [if_neg (by omega)]

/-- Witness for the amended C1 theorem: four selected files of which exactly
`d.md` fails give outcome (4, 3) and internal failed list `[d.md]`. -/
theorem downloadBatch_semantics_witness :
    downloadBatch dlOkW (strOf "/w/docs") [] dlFiles4 = .ok ⟨4, 3⟩ ∧
    batchFailedList dlOkW (strOf "/w/docs") [] dlFiles4 = [strOf "d.md"] := by
  have h := downloadBatch_semantics dlOkW (strOf "/w/docs") [] dlFiles4
    (by intro f hf; fin_cases hf <;> exact ⟨_, rfl⟩)
  constructor
  · have h5 := h.2.2.2.2 (by decide)
    rw [h5]
    decide
  · rw [h.2.1]
    decide

/-- C9 (amended): the progress callback is invoked exactly once after each
successfully downloaded file — with its success ordinal, the total selected
count and its relative path, in download order — and is not invoked after a
failed file; the events are a function of the same data as the outcome and
do not influence it. -/
theorem batchProgressEvents_semantics (ok : Str → Bool) (dp eff : Str)
    (files : List Str)
    (hsan : ∀ f ∈ files, ∃ p, sanitizePath dp (relPathOf eff f) = .ok p) :
    batchProgressEvents ok dp eff files =
      eventsFor files.length 0 ((files.filter ok).map (relPathOf eff)) ∧
    (batchProgressEvents ok dp eff files).length = (files.filter ok).length := by
  have hl := downloadLoop_char ok dp eff files hsan 0 [] [] files.length
  simp only [Nat.zero_add, List.nil_append] at hl
  have h1 : batchProgressEvents ok dp eff files =
      eventsFor files.length 0 ((files.filter ok).map (relPathOf eff)) := by
    unfold batchProgressEvents
    rw [hl]
  refine ⟨h1, ?_⟩
  rw [h1]
  unfold eventsFor
  rw [List.length_map, List.enumFrom_length, List.length_map]

/-- Witness for the amended C9 theorem: the same four-file batch produces
exactly three progress invocations, one per successful file. -/
theorem batchProgressEvents_semantics_witness :
    batchProgressEvents dlOkW (strOf "/w/docs") [] dlFiles4 =
      eventsFor dlFiles4.length 0 ((dlFiles4.filter dlOkW).map (relPathOf [])) ∧
    (batchProgressEvents dlOkW (strOf "/w/docs") [] dlFiles4).length =
      (dlFiles4.filter dlOkW).length :=
  batchProgressEvents_semantics dlOkW (strOf "/w/docs") [] dlFiles4
    (by intro f hf; fin_cases hf <;> exact ⟨_, rfl⟩)

end AgentMd

namespace AgentMd

/-! ### Branch fallback semantics (C4) -/

theorem tryBranches_all_notFound {α ε : Type} (oracle : Str → TreeResp α ε)
    (all : List Str) :
    ∀ l : List Str, (∀ b ∈ l, oracle b = .notFound) →
      tryBranches oracle all l = (.error (.repositoryNotFound all), l) := by
  intro l
  induction l with
  | nil => intro _; rfl
  | cons b rest ih =>
    intro h
    unfold tryBranches
    rw [h b (List.mem_cons_self b rest)]
    dsimp only
    rw [ih (fun x hx => h x (List.mem_cons_of_mem b hx))]

theorem tryBranches_success {α ε : Type} (oracle : Str → TreeResp α ε)
    (all : List Str) :
    ∀ (l₁ : List Str) (b : Str) (l₂ : List Str) (t : α),
      (∀ x ∈ l₁, oracle x = .notFound) → oracle b = .success t →
      tryBranches oracle all (l₁ ++ b :: l₂) = (.ok (t, b), l₁ ++ [b]) := by
  intro l₁
  induction l₁ with
  | nil =>
    intro b l₂ t _ hb
    rw [List.nil_append]
    unfold tryBranches
    rw [hb]
    rfl
  | cons a rest ih =>
    intro b l₂ t h hb
    rw [List.cons_append]
    unfold tryBranches
    rw [h a (List.mem_cons_self a rest)]
    dsimp only
    rw [ih b l₂ t (fun x hx => h x (List.mem_cons_of_mem a hx)) hb]
    rfl

theorem tryBranches_failed {α ε : Type} (oracle : Str → TreeResp α ε)
    (all : List Str) :
    ∀ (l₁ : List Str) (b : Str) (l₂ : List Str) (e : ε),
      (∀ x ∈ l₁, oracle x = .notFound) → oracle b = .failed e →
      tryBranches oracle all (l₁ ++ b :: l₂) = (.error (.surfaced e), l₁ ++ [b]) := by
  intro l₁
  induction l₁ with
  | nil =>
    intro b l₂ e _ hb
    rw [List.nil_append]
    unfold tryBranches
    rw [hb]
    rfl
  | cons a rest ih =>
    intro b l₂ e h hb
    rw [List.cons_append]
    unfold tryBranches
    rw [h a (List.mem_cons_self a rest)]
    dsimp only
    rw [ih b l₂ e (fun x hx => h x (List.mem_cons_of_mem a hx)) hb]
    rfl

/-- C4: the tree fetcher's candidate list is the preferred branch (when
non-empty) followed by `main, master, develop, dev`, with duplicates removed
keeping first occurrences; every `notFound` (404) candidate advances to the
next, a success returns that candidate as the actual branch with its tree
after attempting exactly the preceding 404 candidates plus itself, any other
failure aborts immediately after the same attempts, and exhausting all
candidates fails with `RepositoryNotFound` naming every branch tried. -/
theorem fetchRepoTreeWithFallback_semantics :
    (∀ p : Str, buildBranchesToTry p =
      dedupFirst ((if p ≠ [] then [p] else []) ++ branchFallbacks)) ∧
    (∀ (α ε : Type) (oracle : Str → TreeResp α ε) (p : Str),
      ((∀ b ∈ buildBranchesToTry p, oracle b = .notFound) →
        fetchRepoTreeWithFallback oracle p =
          (.error (.repositoryNotFound (buildBranchesToTry p)),
            buildBranchesToTry p)) ∧
      (∀ (l₁ : List Str) (b : Str) (l₂ : List Str) (t : α),
        buildBranchesToTry p = l₁ ++ b :: l₂ →
        (∀ x ∈ l₁, oracle x = .notFound) → oracle b = .success t →
        fetchRepoTreeWithFallback oracle p = (.ok (t, b), l₁ ++ [b])) ∧
      (∀ (l₁ : List Str) (b : Str) (l₂ : List Str) (e : ε),
        buildBranchesToTry p = l₁ ++ b :: l₂ →
        (∀ x ∈ l₁, oracle x = .notFound) → oracle b = .failed e →
        fetchRepoTreeWithFallback oracle p =
          (.error (.surfaced e), l₁ ++ [b]))) := by
  constructor
  · intro p
    unfold buildBranchesToTry dedupFirst
    by_cases hp : p = []
    · simp [hp, branchFallbacks]
    · simp [hp, branchFallbacks]
  · intro α ε oracle p
    refine ⟨?_, ?_, ?_⟩
    · intro h
      unfold fetchRepoTreeWithFallback
      exact tryBranches_all_notFound oracle (buildBranchesToTry p)
        (buildBranchesToTry p) h
    · intro l₁ b l₂ t heq h hb
      unfold fetchRepoTreeWithFallback
      dsimp only
      rw [heq]
      exact tryBranches_success oracle _ l₁ b l₂ t h hb
    · intro l₁ b l₂ e heq h hb
      unfold fetchRepoTreeWithFallback
      dsimp only
      rw [heq]
      exact tryBranches_failed oracle _ l₁ b l₂ e h hb

/-- Witness for C4: preferred branch `feature` 404s and `main` succeeds, so
the candidate list is `[feature, main, master, develop, dev]`, the result is
`main`'s tree with actual branch `main`, and exactly two attempts occur. -/
theorem fetchRepoTreeWithFallback_semantics_witness :
    buildBranchesToTry (strOf "feature") =
      [strOf "feature", strOf "main", strOf "master", strOf "develop",
        strOf "dev"] ∧
    fetchRepoTreeWithFallback c4oracle (strOf "feature") =
      (.ok (7, strOf "main"), [strOf "feature", strOf "main"]) := by
  refine ⟨by decide, ?_⟩
  have h := (fetchRepoTreeWithFallback_semantics.2 Nat Nat c4oracle
    (strOf "feature")).2.1 [strOf "feature"] (strOf "main")
    [strOf "master", strOf "develop", strOf "dev"] 7
    (by decide) (by decide) (by decide)
  rw [h]
  rfl

end AgentMd

namespace AgentMd

/-! ### URL normalization lemmas (C8) -/

theorem dropWhile_all_false {p : Char → Bool} :
    ∀ {s : Str}, (∀ c ∈ s, p c = false) → s.dropWhile p = s := by
  intro s h
  cases s with
  | nil => rfl
  | cons a t =>
    rw [List.dropWhile_cons, if_neg]
    intro hcon
    rw [h a (List.mem_cons_self a t)] at hcon
    exact Bool.false_ne_true hcon

theorem jsTrim_wsFree {s : Str} (h : ∀ c ∈ s, jsIsWs c = false) : jsTrim s = s := by
  unfold jsTrim jsTrimEnd
  rw [dropWhile_all_false h,
    dropWhile_all_false (fun c hc => h c (List.mem_reverse.mp hc)),
    List.reverse_reverse]

theorem wsFree_append {a b : Str} (ha : ∀ c ∈ a, jsIsWs c = false)
    (hb : ∀ c ∈ b, jsIsWs c = false) : ∀ c ∈ a ++ b, jsIsWs c = false := by
  intro c hc
  rcases List.mem_append.mp hc with h | h
  · exact ha c h
  · exact hb c h

theorem wsFree_cons {a : Char} {t : Str} (ha : jsIsWs a = false)
    (ht : ∀ c ∈ t, jsIsWs c = false) : ∀ c ∈ a :: t, jsIsWs c = false := by
  intro c hc
  rcases List.mem_cons.mp hc with h | h
  · rw [h]
    exact ha
  · exact ht c h

theorem endsWithL_append_ge {q r : Str} (a : Str) (h : q.length ≤ r.length) :
    endsWithL q (a ++ r) = endsWithL q r := by
  unfold endsWithL
  rw [decide_eq_decide]
  have hidx : (a ++ r).length - q.length = a.length + (r.length - q.length) := by
    rw [List.length_append]
    omega
  rw [hidx, List.drop_append]

theorem endsWithL_append_self (a q : Str) : endsWithL q (a ++ q) = true := by
  unfold endsWithL
  apply decide_eq_true
  have hidx : (a ++ q).length - q.length = a.length + 0 := by
    rw [List.length_append]
    omega
  rw [hidx, List.drop_append, List.drop_zero]

theorem endsWithL_seg {q z : Str} (y : Str) (hq : '/' ∉ q)
    (hz : endsWithL q z = false) : endsWithL q (y ++ '/' :: z) = false := by
  by_cases hlen : q.length ≤ z.length
  · have h1 : y ++ '/' :: z = (y ++ ['/']) ++ z := by simp
    rw [h1, endsWithL_append_ge _ hlen]
    exact hz
  · unfold endsWithL
    apply decide_eq_false
    intro hc
    have hlen2 : (y ++ '/' :: z).length = y.length + z.length + 1 := by
      simp only [List.length_append, List.length_cons]
      omega
    have hk : (y ++ '/' :: z).length - q.length ≤ y.length := by omega
    have h1 : '/' ∈ (y ++ '/' :: z).drop y.length := by
      rw [List.drop_left]
      exact List.mem_cons_self _ _
    have h2 : (y ++ '/' :: z).drop y.length =
        ((y ++ '/' :: z).drop ((y ++ '/' :: z).length - q.length)).drop
          (y.length - ((y ++ '/' :: z).length - q.length)) := by
      rw [List.drop_drop]
      congr 1
      omega
    rw [h2, hc] at h1
    exact hq (List.mem_of_mem_drop h1)

theorem endsWithL_last {y : Str} {c : Char} (hc : c ≠ '/') :
    endsWithL (strOf "/") (y ++ [c]) = false := by
  unfold endsWithL
  apply decide_eq_false
  intro hcon
  have hlen : (y ++ [c]).length - (strOf "/").length = y.length := by
    rw [List.length_append]
    have h1 : (strOf "/").length = 1 := rfl
    have h2 : ([c] : Str).length = 1 := rfl
    rw [h1, h2]
    omega
  have h3 : ([c] : Str) = strOf "/" := by
    rw [← List.drop_left y [c], ← hlen]
    exact hcon
  have h4 : ([c] : Str) = ['/'] := h3.trans (by decide)
  injection h4 with h5 h6
  exact hc h5

theorem startsWithL_append_self (q z : Str) : startsWithL q (q ++ z) = true := by
  unfold startsWithL
  exact decide_eq_true (List.take_left _ _)

theorem startsWithL_http_false (z : Str) :
    startsWithL (strOf "http") (ghPrefix ++ z) = false := by
  unfold startsWithL
  apply decide_eq_false
  intro hc
  rw [List.take_append_of_le_length (by decide)] at hc
  exact absurd hc (by decide)

theorem startsWithL_https (z : Str) :
    startsWithL (strOf "http") (strOf "https://" ++ z) = true := by
  unfold startsWithL
  apply decide_eq_true
  rw [List.take_append_of_le_length (by decide)]
  decide

theorem takeWhile_append_all {p : Char → Bool} :
    ∀ {a : Str}, (∀ c ∈ a, p c = true) → ∀ b : Str,
      (a ++ b).takeWhile p = a ++ b.takeWhile p := by
  intro a
  induction a with
  | nil =>
    intro _ b
    simp
  | cons x t ih =>
    intro h b
    rw [List.cons_append, List.takeWhile_cons, h x (List.mem_cons_self x t),
      if_pos rfl, ih (fun c hc => h c (List.mem_cons_of_mem x hc)) b,
      List.cons_append]

theorem takeWhile_all {p : Char → Bool} {a : Str} (h : ∀ c ∈ a, p c = true) :
    a.takeWhile p = a := by
  have h2 := takeWhile_append_all h []
  simpa using h2

theorem takeWhile_cons_false {p : Char → Bool} {c : Char} (t : Str)
    (hc : p c = false) : (c :: t).takeWhile p = [] := by
  rw [List.takeWhile_cons, hc, if_neg Bool.false_ne_true]

/-- Staged evaluation of `parseGitHubUrl`: given the values of the three
normalization stages and the scan result, compute the parse result. -/
theorem parseGitHubUrl_pipeline (u c1 c2 c3 : Str) {pr : ParsedGitHubUrl}
    (hws : ∀ c ∈ u, jsIsWs c = false)
    (h1 : (if startsWithL (strOf "http") u then u else strOf "https://" ++ u) = c1)
    (h2 : (if endsWithL (strOf ".git") c1 then c1.take (c1.length - 4) else c1) = c2)
    (h3 : (if endsWithL (strOf "/") c2 then c2.take (c2.length - 1) else c2) = c3)
    (hscan : scanGitHub c3 = some pr) :
    parseGitHubUrl u = .ok pr := by
  unfold parseGitHubUrl
  dsimp only
  rw [jsTrim_wsFree hws, h1, h2, h3, hscan]

end AgentMd

namespace AgentMd

/-! ### Regex match and scan lemmas (C8) -/

theorem tryMatchAt_plain (o r : Str) (hno : o ≠ []) (hso : ∀ c ∈ o, c ≠ '/')
    (hnr : r ≠ []) (hsr : ∀ c ∈ r, c ≠ '/') :
    tryMatchAt (ghPrefix ++ (o ++ '/' :: r)) = some ⟨o, r, []⟩ := by
  unfold tryMatchAt
  rw [if_pos (startsWithL_append_self ghPrefix (o ++ '/' :: r))]
  dsimp only
  rw [List.drop_left]
  rw [takeWhile_append_all (fun c hc => decide_eq_true (hso c hc)) ('/' :: r),
    takeWhile_cons_false r (by decide), List.append_nil]
  rw [if_neg hno]
  rw [List.drop_left]
  dsimp only
  rw [if_pos rfl]
  rw [takeWhile_all (fun c hc => decide_eq_true (hsr c hc))]
  rw [if_neg hnr, List.drop_length]
  rw [if_neg (by decide : ¬ startsWithL (strOf "/tree/") [] = true)]

theorem tryMatchAt_tree (o r b : Str) (hno : o ≠ []) (hso : ∀ c ∈ o, c ≠ '/')
    (hnr : r ≠ []) (hsr : ∀ c ∈ r, c ≠ '/') (hsb : ∀ c ∈ b, c ≠ '/') :
    tryMatchAt (ghPrefix ++ (o ++ '/' :: (r ++ '/' :: (strOf "tree/" ++ b)))) =
      some ⟨o, r, b⟩ := by
  unfold tryMatchAt
  rw [if_pos (startsWithL_append_self ghPrefix _)]
  dsimp only
  rw [List.drop_left]
  rw [takeWhile_append_all (fun c hc => decide_eq_true (hso c hc)),
    takeWhile_cons_false _ (by decide), List.append_nil]
  rw [if_neg hno]
  rw [List.drop_left]
  dsimp only
  rw [if_pos rfl]
  rw [takeWhile_append_all (fun c hc => decide_eq_true (hsr c hc)),
    takeWhile_cons_false _ (by decide), List.append_nil]
  rw [if_neg hnr]
  rw [List.drop_left]
  have hT : ('/' : Char) :: (strOf "tree/" ++ b) = strOf "/tree/" ++ b := rfl
  rw [hT, if_pos (startsWithL_append_self (strOf "/tree/") b)]
  have h6 : (6 : Nat) = (strOf "/tree/").length := by decide
  have hdrop6 : (strOf "/tree/" ++ b).drop 6 = b := by
    rw [h6]
    exact List.drop_left _ _
  rw [hdrop6, takeWhile_all (fun c hc => decide_eq_true (hsb c hc))]

theorem scanGitHub_of_match {s : Str} {pr : ParsedGitHubUrl} (hs : s ≠ [])
    (h : tryMatchAt s = some pr) : scanGitHub s = some pr := by
  match s with
  | [] => exact absurd rfl hs
  | c :: t =>
    unfold scanGitHub
    rw [h]

theorem tryMatchAt_not_g {c : Char} (t : Str) (hc : c ≠ 'g') :
    tryMatchAt (c :: t) = none := by
  unfold tryMatchAt
  rw [if_neg]
  intro hcon
  have h1 : (c :: t).take ghPrefix.length = ghPrefix := of_decide_eq_true hcon
  have h2 := congrArg List.head? h1
  rw [show ((c :: t).take ghPrefix.length).head? = some c from rfl] at h2
  rw [show ghPrefix.head? = some 'g' from rfl] at h2
  exact hc (Option.some.inj h2)

theorem scanGitHub_cons_none {c : Char} {t : Str} (h : tryMatchAt (c :: t) = none) :
    scanGitHub (c :: t) = scanGitHub t := by
  conv_lhs => unfold scanGitHub
  rw [h]

theorem scanGitHub_https (z : Str) :
    scanGitHub (strOf "https://" ++ z) = scanGitHub z := by
  show scanGitHub ('h' :: 't' :: 't' :: 'p' :: 's' :: ':' :: '/' :: '/' :: z) =
    scanGitHub z
  rw [scanGitHub_cons_none (tryMatchAt_not_g _ (by decide)),
    scanGitHub_cons_none (tryMatchAt_not_g _ (by decide)),
    scanGitHub_cons_none (tryMatchAt_not_g _ (by decide)),
    scanGitHub_cons_none (tryMatchAt_not_g _ (by decide)),
    scanGitHub_cons_none (tryMatchAt_not_g _ (by decide)),
    scanGitHub_cons_none (tryMatchAt_not_g _ (by decide)),
    scanGitHub_cons_none (tryMatchAt_not_g _ (by decide)),
    scanGitHub_cons_none (tryMatchAt_not_g _ (by decide))]

theorem ghApp_ne_nil (z : Str) : ghPrefix ++ z ≠ [] := by
  intro hcon
  exact absurd (List.append_eq_nil.mp hcon).1 (by decide)

end AgentMd

namespace AgentMd

theorem take_strip_slash (Y : Str) :
    (Y ++ strOf "/").take ((Y ++ strOf "/").length - 1) = Y := by
  have h1 : (Y ++ strOf "/").length - 1 = Y.length := by
    rw [List.length_append]
    have h2 : (strOf "/").length = 1 := rfl
    rw [h2]
    omega
  rw [h1, List.take_left]

theorem take_strip_git (Y : Str) :
    (Y ++ strOf ".git").take ((Y ++ strOf ".git").length - 4) = Y := by
  have h1 : (Y ++ strOf ".git").length - 4 = Y.length := by
    rw [List.length_append]
    have h2 : (strOf ".git").length = 4 := rfl
    rw [h2]
    omega
  rw [h1, List.take_left]

/-- C8 (amended): for well-formed lowercase locators, the resolver accepts
the bare `github.com/owner/repo` form and its scheme-prefixed,
trailing-slash and `.git`-suffixed variants, all yielding identical owner
and repo with empty branch, and accepts the `/tree/branch` form yielding
that branch. (Host matching is case-sensitive and the `.git`-then-slash
combination leaves `.git` in the repo name — see the counterexample
theorem — so the claim's full case-insensitivity does not hold.) -/
theorem parseGitHubUrl_variant_equivalence (o r b : Str)
    (ho : urlSeg o) (hr : urlSeg r) (hb : urlSeg b)
    (hrg : endsWithL (strOf ".git") r = false)
    (hbg : endsWithL (strOf ".git") b = false) :
    parseGitHubUrl (ghPrefix ++ o ++ '/' :: r) = .ok ⟨o, r, []⟩ ∧
    parseGitHubUrl (strOf "https://" ++ (ghPrefix ++ o ++ '/' :: r)) =
      .ok ⟨o, r, []⟩ ∧
    parseGitHubUrl ((ghPrefix ++ o ++ '/' :: r) ++ strOf "/") = .ok ⟨o, r, []⟩ ∧
    parseGitHubUrl ((ghPrefix ++ o ++ '/' :: r) ++ strOf ".git") =
      .ok ⟨o, r, []⟩ ∧
    parseGitHubUrl (strOf "https://" ++ (ghPrefix ++ o ++ '/' :: r) ++
      strOf ".git") = .ok ⟨o, r, []⟩ ∧
    parseGitHubUrl (ghPrefix ++ o ++ '/' :: (r ++ strOf "/tree/" ++ b)) =
      .ok ⟨o, r, b⟩ := by
  have hno : o ≠ [] := ho.1
  have hso : ∀ c ∈ o, c ≠ '/' := fun c hc => (ho.2 c hc).1
  have hwo : ∀ c ∈ o, jsIsWs c = false := fun c hc => (ho.2 c hc).2
  have hnr : r ≠ [] := hr.1
  have hsr : ∀ c ∈ r, c ≠ '/' := fun c hc => (hr.2 c hc).1
  have hwr : ∀ c ∈ r, jsIsWs c = false := fun c hc => (hr.2 c hc).2
  have hnb : b ≠ [] := hb.1
  have hsb : ∀ c ∈ b, c ≠ '/' := fun c hc => (hb.2 c hc).1
  have hwb : ∀ c ∈ b, jsIsWs c = false := fun c hc => (hb.2 c hc).2
  have hws1 : ∀ c ∈ (ghPrefix ++ o) ++ '/' :: r, jsIsWs c = false :=
    wsFree_append (wsFree_append (by decide) hwo) (wsFree_cons (by decide) hwr)
  have hassoc : (ghPrefix ++ o) ++ '/' :: r = ghPrefix ++ (o ++ '/' :: r) :=
    List.append_assoc _ _ _
  have hgitS : endsWithL (strOf ".git")
      (strOf "https://" ++ (ghPrefix ++ (o ++ '/' :: r))) = false := by
    have hsh : strOf "https://" ++ (ghPrefix ++ (o ++ '/' :: r)) =
        ((strOf "https://" ++ ghPrefix) ++ o) ++ '/' :: r := by
      simp [List.append_assoc]
    rw [hsh]
    exact endsWithL_seg _ (by decide) hrg
  rcases List.eq_nil_or_concat r with hrnil | ⟨r', cr, hrc⟩
  · exact absurd hrnil hnr
  have hrc' : r = r' ++ [cr] := hrc.trans (List.concat_eq_append r' cr)
  have hcr : cr ≠ '/' :=
    hsr cr (by rw [hrc']; exact List.mem_append_right _ (List.mem_cons_self _ _))
  have hslS : endsWithL (strOf "/")
      (strOf "https://" ++ (ghPrefix ++ (o ++ '/' :: r))) = false := by
    have hsh : strOf "https://" ++ (ghPrefix ++ (o ++ '/' :: r)) =
        (strOf "https://" ++ (ghPrefix ++ (o ++ '/' :: r'))) ++ [cr] := by
      rw [hrc']
      simp [List.append_assoc]
    rw [hsh]
    exact endsWithL_last hcr
  have hscanS : scanGitHub (strOf "https://" ++ (ghPrefix ++ (o ++ '/' :: r))) =
      some ⟨o, r, []⟩ := by
    rw [scanGitHub_https]
    exact scanGitHub_of_match (ghApp_ne_nil _) (tryMatchAt_plain o r hno hso hnr hsr)
  refine ⟨?_, ?_, ?_, ?_, ?_, ?_⟩
  · exact parseGitHubUrl_pipeline _
      (strOf "https://" ++ (ghPrefix ++ (o ++ '/' :: r)))
      (strOf "https://" ++ (ghPrefix ++ (o ++ '/' :: r)))
      (strOf "https://" ++ (ghPrefix ++ (o ++ '/' :: r)))
      hws1
      (by rw [hassoc, startsWithL_http_false, if_neg Bool.false_ne_true])
      (by rw [hgitS, if_neg Bool.false_ne_true])
      (by rw [hslS, if_neg Bool.false_ne_true])
      hscanS
  · exact parseGitHubUrl_pipeline _
      (strOf "https://" ++ (ghPrefix ++ (o ++ '/' :: r)))
      (strOf "https://" ++ (ghPrefix ++ (o ++ '/' :: r)))
      (strOf "https://" ++ (ghPrefix ++ (o ++ '/' :: r)))
      (wsFree_append (by decide) hws1)
      (by
        rw [hassoc, startsWithL_https, if_pos rfl])
      (by rw [hgitS, if_neg Bool.false_ne_true])
      (by rw [hslS, if_neg Bool.false_ne_true])
      hscanS
  · exact parseGitHubUrl_pipeline _
      (strOf "https://" ++ (ghPrefix ++ (o ++ '/' :: r)) ++ strOf "/")
      (strOf "https://" ++ (ghPrefix ++ (o ++ '/' :: r)) ++ strOf "/")
      (strOf "https://" ++ (ghPrefix ++ (o ++ '/' :: r)))
      (wsFree_append hws1 (by decide))
      (by
        have hass3 : ((ghPrefix ++ o) ++ '/' :: r) ++ strOf "/" =
            ghPrefix ++ ((o ++ '/' :: r) ++ strOf "/") := by
          simp [List.append_assoc]
        rw [hass3, startsWithL_http_false, if_neg Bool.false_ne_true]
        simp [List.append_assoc])
      (by
        have hgit3 : endsWithL (strOf ".git")
            (strOf "https://" ++ (ghPrefix ++ (o ++ '/' :: r)) ++ strOf "/") =
            false := by
          have hsh : strOf "https://" ++ (ghPrefix ++ (o ++ '/' :: r)) ++
              strOf "/" =
              (strOf "https://" ++ (ghPrefix ++ (o ++ '/' :: r))) ++
                '/' :: [] := rfl
          rw [hsh]
          exact endsWithL_seg _ (by decide) (by decide)
        rw [hgit3, if_neg Bool.false_ne_true])
      (by
        rw [endsWithL_append_self, if_pos rfl]
        exact take_strip_slash _)
      hscanS
  · exact parseGitHubUrl_pipeline _
      (strOf "https://" ++ (ghPrefix ++ (o ++ '/' :: r)) ++ strOf ".git")
      (strOf "https://" ++ (ghPrefix ++ (o ++ '/' :: r)))
      (strOf "https://" ++ (ghPrefix ++ (o ++ '/' :: r)))
      (wsFree_append hws1 (by decide))
      (by
        have hass4 : ((ghPrefix ++ o) ++ '/' :: r) ++ strOf ".git" =
            ghPrefix ++ ((o ++ '/' :: r) ++ strOf ".git") := by
          simp [List.append_assoc]
        rw [hass4, startsWithL_http_false, if_neg Bool.false_ne_true]
        simp [List.append_assoc])
      (by
        rw [endsWithL_append_self, if_pos rfl]
        exact take_strip_git _)
      (by rw [hslS, if_neg Bool.false_ne_true])
      hscanS
  · exact parseGitHubUrl_pipeline _
      (strOf "https://" ++ (ghPrefix ++ (o ++ '/' :: r)) ++ strOf ".git")
      (strOf "https://" ++ (ghPrefix ++ (o ++ '/' :: r)))
      (strOf "https://" ++ (ghPrefix ++ (o ++ '/' :: r)))
      (wsFree_append (wsFree_append (by decide) hws1) (by decide))
      (by
        have hass5 : (strOf "https://" ++ ((ghPrefix ++ o) ++ '/' :: r)) ++
            strOf ".git" =
            strOf "https://" ++ (((ghPrefix ++ o) ++ '/' :: r) ++
              strOf ".git") := by
          simp [List.append_assoc]
        rw [hass5, startsWithL_https, if_pos rfl]
        simp [List.append_assoc])
      (by
        rw [endsWithL_append_self, if_pos rfl]
        exact take_strip_git _)
      (by rw [hslS, if_neg Bool.false_ne_true])
      hscanS
  · have hsplit : strOf "/tree/" = '/' :: strOf "tree/" := rfl
    have hin : endsWithL (strOf ".git") (strOf "tree/" ++ b) = false := by
      have h0 : strOf "tree/" ++ b = strOf "tree" ++ '/' :: b := rfl
      rw [h0]
      exact endsWithL_seg _ (by decide) hbg
    rcases List.eq_nil_or_concat b with hbnil | ⟨b', cb, hbc⟩
    · exact absurd hbnil hnb
    have hbc' : b = b' ++ [cb] := hbc.trans (List.concat_eq_append b' cb)
    have hcb : cb ≠ '/' :=
      hsb cb (by rw [hbc']; exact List.mem_append_right _ (List.mem_cons_self _ _))
    exact parseGitHubUrl_pipeline _
      (strOf "https://" ++ (ghPrefix ++ (o ++ '/' ::
        (r ++ '/' :: (strOf "tree/" ++ b)))))
      (strOf "https://" ++ (ghPrefix ++ (o ++ '/' ::
        (r ++ '/' :: (strOf "tree/" ++ b)))))
      (strOf "https://" ++ (ghPrefix ++ (o ++ '/' ::
        (r ++ '/' :: (strOf "tree/" ++ b)))))
      (wsFree_append (wsFree_append (by decide) hwo)
        (wsFree_cons (by decide)
          (wsFree_append (wsFree_append hwr (by decide)) hwb)))
      (by
        have hass6 : (ghPrefix ++ o) ++ '/' :: ((r ++ strOf "/tree/") ++ b) =
            ghPrefix ++ (o ++ '/' :: ((r ++ strOf "/tree/") ++ b)) :=
          List.append_assoc _ _ _
        rw [hass6, startsWithL_http_false, if_neg Bool.false_ne_true, hsplit]
        simp [List.append_assoc])
      (by
        have hsh6 : strOf "https://" ++ (ghPrefix ++ (o ++ '/' ::
            (r ++ '/' :: (strOf "tree/" ++ b)))) =
            (strOf "https://" ++ (ghPrefix ++ (o ++ '/' :: r))) ++
              '/' :: (strOf "tree/" ++ b) := by
          simp [List.append_assoc]
        rw [hsh6, endsWithL_seg _ (by decide) hin, if_neg Bool.false_ne_true])
      (by
        have hsh6 : strOf "https://" ++ (ghPrefix ++ (o ++ '/' ::
            (r ++ '/' :: (strOf "tree/" ++ b)))) =
            (strOf "https://" ++ (ghPrefix ++ (o ++ '/' ::
              (r ++ '/' :: (strOf "tree/" ++ b'))))) ++ [cb] := by
          rw [hbc']
          simp [List.append_assoc]
        rw [hsh6, endsWithL_last hcb, if_neg Bool.false_ne_true])
      (by
        rw [scanGitHub_https]
        exact scanGitHub_of_match (ghApp_ne_nil _)
          (tryMatchAt_tree o r b hno hso hnr hsr hsb))

/-- Witness for the amended C8 theorem at owner `octo`, repo `repo`,
branch `dev`. -/
theorem parseGitHubUrl_variant_equivalence_witness :
    parseGitHubUrl (ghPrefix ++ strOf "octo" ++ '/' :: strOf "repo") =
      .ok ⟨strOf "octo", strOf "repo", []⟩ ∧
    parseGitHubUrl (strOf "https://" ++
      (ghPrefix ++ strOf "octo" ++ '/' :: strOf "repo")) =
      .ok ⟨strOf "octo", strOf "repo", []⟩ ∧
    parseGitHubUrl ((ghPrefix ++ strOf "octo" ++ '/' :: strOf "repo") ++
      strOf "/") = .ok ⟨strOf "octo", strOf "repo", []⟩ ∧
    parseGitHubUrl ((ghPrefix ++ strOf "octo" ++ '/' :: strOf "repo") ++
      strOf ".git") = .ok ⟨strOf "octo", strOf "repo", []⟩ ∧
    parseGitHubUrl (strOf "https://" ++
      (ghPrefix ++ strOf "octo" ++ '/' :: strOf "repo") ++ strOf ".git") =
      .ok ⟨strOf "octo", strOf "repo", []⟩ ∧
    parseGitHubUrl (ghPrefix ++ strOf "octo" ++ '/' ::
      (strOf "repo" ++ strOf "/tree/" ++ strOf "dev")) =
      .ok ⟨strOf "octo", strOf "repo", strOf "dev"⟩ :=
  parseGitHubUrl_variant_equivalence (strOf "octo") (strOf "repo") (strOf "dev")
    ⟨by decide, by decide⟩ ⟨by decide, by decide⟩ ⟨by decide, by decide⟩
    (by decide) (by decide)

end AgentMd
